import Mathlib

/-!
Verification of the hvm-lang front end: the `Term`/`Pattern`/`Rule`/`DefinitionBook`
data model with its opcode tables (src/ast/hvm_lang.rs) and the chumsky-based
recursive-descent parser with its book-assembly pass (src/parser/parser.rs).

The Rust code is shallowly embedded: the AST types become inductives, the parser
combinators become functions from a token list to an optional
(output, remaining input, emitted diagnostics) triple — `none` is parse failure
(chumsky rewinds both input and emitted diagnostics on a failed alternative).
`todo!()` (a panic) in the opcode decoder is modelled as `none` in an
`Option (Except Unit NumOper)`, keeping the panic distinct from the `Err(())`
branch. Machine integers stay `Nat`: every value involved (opcodes 0x0–0xf,
name lengths, spans) is far below any wrap-around.
-/

namespace Hvm

/-- Byte span into the source, mirroring chumsky's `SimpleSpan`. -/
structure Span where
  startPos : Nat
  endPos : Nat
deriving DecidableEq, Repr

/-- A diagnostic, mirroring `Rich<Token>`: `custom` is `Rich::custom(span, msg)`
(the only kind the repository itself constructs); `generated` stands for a
parser-generated syntax error (its message/span are chumsky internals that no
claim inspects). -/
inductive Diag where
  | custom (span : Span) (msg : String)
  | generated
deriving DecidableEq, Repr

/-- Names wrap validated identifier strings (`Name` lives outside src/; the spec
calls it "a validated identifier string"). -/
abbrev Name := String

/-- `Number` wraps a non-negative integer literal (outside src/; the spec calls
it "a validated non-negative integer literal, opaque to this layer"). -/
abbrev Number := Nat

/-- The token type of the external lexer, as used by src/parser/parser.rs:
name and number tokens, the structural tokens the grammar consumes, the sixteen
operator tokens matched by `num_oper`, and the explicit lexical-error token. -/
inductive Token where
  | Name (s : String)
  | Number (n : Nat)
  | LParen
  | RParen
  | NewLine
  | Lambda
  | Dup
  | Let
  | Equals
  | Semicolon
  | Add | Sub | Mul | Div | Mod
  | And | Or | Xor | Shl | Shr
  | Lte | Ltn | Gte | Gtn
  | EqualsEquals | NotEquals
  | Err
deriving DecidableEq, Repr

/-- The sixteen binary numeric operators (src/ast/hvm_lang.rs, `enum NumOper`). -/
inductive NumOper where
  | Add | Sub | Mul | Div | Mod
  | And | Or | Xor | Shl | Shr
  | Ltn | Lte | Gtn | Gte
  | Eql | Neq
deriving DecidableEq, Repr, Fintype

/-- `impl From<NumOper> for u8` (src/ast/hvm_lang.rs lines 62–83): the canonical
4-bit opcode of each operator. -/
def numOperToU8 : NumOper → Nat
  | .Add => 0x0
  | .Sub => 0x1
  | .Mul => 0x2
  | .Div => 0x3
  | .Mod => 0x4
  | .And => 0x5
  | .Or => 0x6
  | .Xor => 0x7
  | .Shl => 0x8
  | .Shr => 0x9
  | .Ltn => 0xa
  | .Lte => 0xb
  | .Gtn => 0xc
  | .Gte => 0xd
  | .Eql => 0xe
  | .Neq => 0xf

deriving instance DecidableEq for Except

/-- `impl TryFrom<u8> for NumOper` (src/ast/hvm_lang.rs lines 85–98).
`some (.ok op)` is `Ok(op)`, `some (.error ())` is `Err(())`, and `none` is the
`todo!()` panic taken for every value in `4 ..= 15`. -/
def numOperTryFrom (value : Nat) : Option (Except Unit NumOper) :=
  if value = 0 then some (.ok .Add)
  else if value = 1 then some (.ok .Sub)
  else if value = 2 then some (.ok .Mul)
  else if value = 3 then some (.ok .Div)
  else if value ≤ 15 then none
  else some (.error ())

/-- `impl fmt::Display for NumOper` (src/ast/hvm_lang.rs lines 118–139). -/
def displayNumOper : NumOper → String
  | .Add => "+"
  | .Sub => "-"
  | .Mul => "*"
  | .Div => "/"
  | .Mod => "%"
  | .And => "&"
  | .Or => "|"
  | .Xor => "^"
  | .Shl => "<<"
  | .Shr => ">>"
  | .Ltn => "<"
  | .Lte => "<="
  | .Gtn => ">"
  | .Gte => ">="
  | .Eql => "=="
  | .Neq => "!="

/-- The expression AST (src/ast/hvm_lang.rs, `enum Term`). Boxes become plain
sub-terms: the tree is strictly owned top-down. -/
inductive Term where
  | Lam (nam : Name) (bod : Term)
  | Var (nam : Name)
  | App (fun_ : Term) (arg : Term)
  | Dup (fst : Name) (snd : Name) (val : Term) (nxt : Term)
  | Num (val : Number)
  | NumOp (op : NumOper) (fst : Term) (snd : Term)
  | Sup (fst : Term) (snd : Term)
  | Era
deriving DecidableEq, Repr

/-- Patterns (src/ast/hvm_lang.rs, `enum Pattern`; the Rust constructors are
spelled `_Ctr`/`_Num`/`_Var`). -/
inductive Pattern where
  | Ctr (nam : Name) (args : List Pattern)
  | Num (n : Number)
  | Var (nam : Name)

mutual

/-- `impl From<Pattern> for Term` (src/ast/hvm_lang.rs lines 106–116):
`Ctr` left-folds its argument conversions as applications onto `Var nam`. -/
def patternToTerm : Pattern → Term
  | .Ctr nam args => patternFold (Term.Var nam) args
  | .Num n => Term.Num n
  | .Var nam => Term.Var nam

/-- The `args.into_iter().fold(...)` loop of the `Ctr` arm, with its accumulator
explicit. -/
def patternFold (acc : Term) : List Pattern → Term
  | [] => acc
  | p :: ps => patternFold (Term.App acc (patternToTerm p)) ps

end

/-- A rule: name, patterns (always empty in this core) and body
(src/ast/hvm_lang.rs, `struct Rule`). -/
structure Rule where
  name : Name
  pats : List Pattern
  body : Term

/-- A definition: a name plus the rules carrying it
(src/ast/hvm_lang.rs, `struct Definition`). -/
structure Definition where
  name : Name
  rules : List Rule

/-- The definition book (src/ast/hvm_lang.rs, `struct DefinitionBook`): a map
from name to definition. The Rust `HashMap` is embedded as an association list;
the book code only ever calls `contains_key` and `insert` on a fresh key, for
which the association list is an exact model. -/
structure DefinitionBook where
  defs : List (Name × Definition)

/-- `DefinitionBook::new()`. -/
def DefinitionBook.new : DefinitionBook := ⟨[]⟩

/-- `book.defs.contains_key(name)`. -/
def DefinitionBook.containsKey (book : DefinitionBook) (name : Name) : Bool :=
  book.defs.any (fun kv => kv.1 == name)

/-- `book.defs.insert(name, def)` for a key not yet present. -/
def DefinitionBook.insertDef (book : DefinitionBook) (name : Name) (d : Definition) :
    DefinitionBook :=
  ⟨book.defs ++ [(name, d)]⟩

/-- Lookup in the book, for stating which definitions it holds. -/
def DefinitionBook.findDef (book : DefinitionBook) (name : Name) : Option Definition :=
  (book.defs.find? (fun kv => kv.1 == name)).map (·.2)

/-- `impl fmt::Display for Term` (src/ast/hvm_lang.rs lines 141–154). Numbers
render through `Nat.repr`, the decimal rendering `write!("{val}")` produces. -/
def displayTerm : Term → String
  | .Lam nam bod => "λ" ++ nam ++ " " ++ displayTerm bod
  | .Var nam => nam
  | .App fun_ arg => "(" ++ displayTerm fun_ ++ " " ++ displayTerm arg ++ ")"
  | .Dup fst snd val nxt =>
      "dup " ++ fst ++ " " ++ snd ++ " = " ++ displayTerm val ++ "; " ++ displayTerm nxt
  | .Num val => Nat.repr val
  | .NumOp op fst snd =>
      "(" ++ displayNumOper op ++ " " ++ displayTerm fst ++ " " ++ displayTerm snd ++ ")"
  | .Sup fst snd => "\x7b" ++ displayTerm fst ++ " " ++ displayTerm snd ++ "\x7d"
  | .Era => "*"

/-- Maximal runs of consecutive elements accepted by `p`, mirroring the slice
`group_by` call in `rules_to_book` (each element is compared with the one just
before it). -/
def chunkByAux (p : α → α → Bool) (cur : α) (acc : List α) : List α → List (List α)
  | [] => [acc.reverse]
  | y :: ys =>
      if p cur y then chunkByAux p y (y :: acc) ys
      else acc.reverse :: chunkByAux p y [y] ys

/-- Slice `group_by`: partition into maximal contiguous runs. -/
def chunkBy (p : α → α → Bool) : List α → List (List α)
  | [] => []
  | x :: xs => chunkByAux p x [x] xs

/-- One group of `rules_to_book`'s loop body: multi-rule groups emit a
"Definition with multiple rules" diagnostic spanning first to last rule and
insert nothing; singleton groups either emit "Repeated definition" at the
rule's span (name already in the book) or insert a fresh single-rule
definition. -/
def bookStep (st : DefinitionBook × List Diag) (chunk : List (Rule × Span)) :
    DefinitionBook × List Diag :=
  match chunk with
  | [] => st
  | (rule, span) :: rest =>
      let (book, diags) := st
      if rest.isEmpty then
        let d : Definition := ⟨rule.name, [rule]⟩
        if book.containsKey rule.name then
          (book, diags ++ [.custom span ("Repeated definition '" ++ rule.name ++ "'")])
        else
          (book.insertDef rule.name d, diags)
      else
        let lastSpan := (((rule, span) :: rest).getLast (by simp)).2
        let defSpan : Span := ⟨span.startPos, lastSpan.endPos⟩
        (book,
          diags ++ [.custom defSpan ("Definition with multiple rules '" ++ rule.name ++ "'")])

/-- `rules_to_book` (src/parser/parser.rs lines 179–204): group the spanned
rules by contiguous equal names, then fold `bookStep` over the groups, starting
from the empty book, returning the book together with every diagnostic emitted. -/
def rules_to_book (rules : List (Rule × Span)) : DefinitionBook × List Diag :=
  (chunkBy (fun r1 r2 => r1.1.name == r2.1.name) rules).foldl bookStep (DefinitionBook.new, [])

/-- The application chain the spec describes for pattern conversion, written as
its own recursion (head applied to each element in turn, left-nested):
`appChain h [t1, …, tn] = App (… App (App h t1) t2 …) tn`. -/
def appChain (head : Term) : List Term → Term
  | [] => head
  | t :: ts => appChain (Term.App head t) ts

/-! ### The parser embedding

A chumsky parser becomes a function from the remaining spanned-token input to
`none` (the alternative failed; chumsky rewinds both the input and the
diagnostics emitted inside the failed alternative) or `some (out, rest, ds)`
(the parse succeeded, leaving `rest`, with `ds` the diagnostics emitted through
`validate`'s emitter, in emission order). The recursion of `recursive(|term| …)`
is paid for by a fuel parameter: each level of fuel corresponds to one re-entry
into the term parser, and every re-entry in the grammar first consumes at least
one token, so the fuel `input length + 1` used by the entry points is never
exhausted on any input. -/

/-- Parser result: output, remaining input, emitted diagnostics. -/
abbrev ParseRes (α : Type) := Option (α × List (Token × Span) × List Diag)

/-- A chumsky parser over the spanned token stream. -/
abbrev ParserM (α : Type) := List (Token × Span) → ParseRes α

/-- Sequencing (`then`/`ignore_then`/`then_ignore`/`map` chains): run `p`, feed
its output to `k`, concatenate emitted diagnostics. -/
def pSeq (p : ParserM α) (k : α → ParserM β) : ParserM β := fun ts =>
  (p ts).bind fun x => (k x.1 x.2.1).map fun y => (y.1, y.2.1, x.2.2 ++ y.2.2)

/-- A parser that consumes nothing and emits nothing. -/
def pPure (a : α) : ParserM α := fun ts => some (a, ts, [])

/-- `just(tok)`: consume exactly the given token. -/
def pTok (t : Token) : ParserM Unit := fun ts =>
  match ts with
  | (t', _) :: rest => if t' = t then some ((), rest, []) else none
  | [] => none

/-- `choice((...))`: try the alternatives in order; the first success wins, a
failed alternative is rewound completely. -/
def pChoice : List (ParserM α) → ParserM α
  | [] => fun _ => none
  | p :: ps => fun ts =>
      match p ts with
      | some r => some r
      | none => pChoice ps ts

/-- Token-level test used by the newline skippers. -/
def isNewLineTok (x : Token × Span) : Bool := x.1 == Token.NewLine

/-- `just(Token::NewLine).repeated()`: greedily skip zero or more newlines. -/
def pNewlines : ParserM Unit := fun ts => some ((), ts.dropWhile isNewLineTok, [])

/-- `just(Token::NewLine).repeated().at_least(1)`: one or more newlines. -/
def pNewlines1 : ParserM Unit := fun ts =>
  match ts with
  | (Token.NewLine, _) :: rest => some ((), rest.dropWhile isNewLineTok, [])
  | _ => none

/-- `u32::ilog2` (base-2 integer logarithm), written with structural fuel so
that it evaluates by kernel reduction; the fuel is the number itself, which
always suffices since halving reaches 1 within that many steps. -/
def ilog2 : Nat → Nat → Nat
  | 0, _ => 0
  | fuel + 1, n => if 2 ≤ n then ilog2 fuel (n / 2) + 1 else 0

/-- `MAX_NAME_LEN` (src/parser/parser.rs line 66):
`(u64::BITS - u16::BITS) / 64_u32.ilog2()`. -/
def MAX_NAME_LEN : Nat := (64 - 16) / ilog2 64 64

/-- `name_parser` (src/parser/parser.rs lines 68–80): select a name token and
validate its length, emitting a non-fatal diagnostic — but still yielding the
name — when it exceeds `MAX_NAME_LEN`. -/
def pName : ParserM Name := fun ts =>
  match ts with
  | (Token.Name s, span) :: rest =>
      some (s, rest,
        if s.length > MAX_NAME_LEN then
          [Diag.custom span
            ("'" ++ s ++ "' exceed maximum name length of " ++ toString MAX_NAME_LEN)]
        else [])
  | _ => none

/-- The `num_oper` select table in `term_parser`: operator token to operator. -/
def numOperOfToken : Token → Option NumOper
  | .Add => some .Add
  | .Sub => some .Sub
  | .Mul => some .Mul
  | .Div => some .Div
  | .Mod => some .Mod
  | .And => some .And
  | .Or => some .Or
  | .Xor => some .Xor
  | .Shl => some .Shl
  | .Shr => some .Shr
  | .Lte => some .Lte
  | .Ltn => some .Ltn
  | .Gte => some .Gte
  | .Gtn => some .Gtn
  | .EqualsEquals => some .Eql
  | .NotEquals => some .Neq
  | _ => none

/-- `num_oper` as a parser. -/
def pNumOper : ParserM NumOper := fun ts =>
  match ts with
  | (tok, _) :: rest =>
      match numOperOfToken tok with
      | some op => some (op, rest, [])
      | none => none
  | [] => none

/-- `var = name_parser().map(|name| Term::Var { nam: name })`. -/
def pVar : ParserM Term := pSeq pName fun nam => pPure (Term.Var nam)

/-- `number = select!(Token::Number(num) => Term::Num { val: num })`. -/
def pNum : ParserM Term := fun ts =>
  match ts with
  | (Token.Number n, _) :: rest => some (Term.Num n, rest, [])
  | _ => none

/-- `nested`: a term delimited by optional newlines inside parentheses.
`pt` is the recursive term parser. -/
def pNested (pt : ParserM Term) : ParserM Term :=
  pSeq (pTok Token.LParen) fun _ =>
  pSeq pNewlines fun _ =>
  pSeq pt fun t =>
  pSeq pNewlines fun _ =>
  pSeq (pTok Token.RParen) fun _ =>
  pPure t

/-- `item = choice((var, number, nested))`. -/
def pItem (pt : ParserM Term) : ParserM Term := pChoice [pVar, pNum, pNested pt]

/-- The greedy `foldl(item.repeated(), App)` loop of `app`: keep consuming
items, left-folding them onto `acc`; a failed attempt stops the loop. The
budget starts at the input length, and an item always consumes at least one
token, so the budget never runs out before a genuine failure. -/
def pAppArgs (pit : ParserM Term) : Nat → Term → ParserM Term
  | 0, acc => fun ts => some (acc, ts, [])
  | n + 1, acc => fun ts =>
      match pit ts with
      | none => some (acc, ts, [])
      | some (a, ts1, ds1) =>
          match pAppArgs pit n (Term.App acc a) ts1 with
          | none => none
          | some (r, ts2, ds2) => some (r, ts2, ds1 ++ ds2)

/-- `app = item.foldl(item.repeated(), |fun, arg| App)`. -/
def pApp (pt : ParserM Term) : ParserM Term := fun ts =>
  match pItem pt ts with
  | none => none
  | some (t0, ts0, ds0) =>
      match pAppArgs (pItem pt) ts0.length t0 ts0 with
      | none => none
      | some (r, ts1, ds1) => some (r, ts1, ds0 ++ ds1)

/-- `lam`: lambda glyph, bound name, body. -/
def pLam (pt : ParserM Term) : ParserM Term :=
  pSeq (pTok Token.Lambda) fun _ =>
  pSeq pName fun nam =>
  pSeq pt fun bod =>
  pPure (Term.Lam nam bod)

/-- `dup`: keyword, two names, `=`, value, `;`, newlines, next. -/
def pDup (pt : ParserM Term) : ParserM Term :=
  pSeq (pTok Token.Dup) fun _ =>
  pSeq pName fun fst =>
  pSeq pName fun snd =>
  pSeq (pTok Token.Equals) fun _ =>
  pSeq pt fun val =>
  pSeq (pTok Token.Semicolon) fun _ =>
  pSeq pNewlines fun _ =>
  pSeq pt fun nxt =>
  pPure (Term.Dup fst snd val nxt)

/-- `let_`: keyword, name, `=`, bound term, `;`, newlines, next — mapped
directly to `App(Lam(name, next), body)` (src/parser/parser.rs lines 139–150). -/
def pLet (pt : ParserM Term) : ParserM Term :=
  pSeq (pTok Token.Let) fun _ =>
  pSeq pName fun nam =>
  pSeq (pTok Token.Equals) fun _ =>
  pSeq pt fun bod =>
  pSeq (pTok Token.Semicolon) fun _ =>
  pSeq pNewlines fun _ =>
  pSeq pt fun nxt =>
  pPure (Term.App (Term.Lam nam nxt) bod)

/-- `num_op = num_oper.then(item).then(item)`. -/
def pNumOpP (pt : ParserM Term) : ParserM Term :=
  pSeq pNumOper fun op =>
  pSeq (pItem pt) fun fst =>
  pSeq (pItem pt) fun snd =>
  pPure (Term.NumOp op fst snd)

/-- `term_parser` (src/parser/parser.rs lines 82–160): the fueled recursive
`choice((lam, app, dup, let_, num_op, item))`. -/
def pTerm : Nat → ParserM Term
  | 0 => fun _ => none
  | f + 1 =>
      pChoice [pLam (pTerm f), pApp (pTerm f), pDup (pTerm f), pLet (pTerm f),
        pNumOpP (pTerm f), pItem (pTerm f)]

/-- `rule_parser` (src/parser/parser.rs lines 162–173):
`"(" Name ")" "=" NewLine* Term`, with an always-empty pattern list. -/
def pRule (f : Nat) : ParserM Rule :=
  pSeq (pTok Token.LParen) fun _ =>
  pSeq pName fun nam =>
  pSeq (pTok Token.RParen) fun _ =>
  pSeq (pTok Token.Equals) fun _ =>
  pSeq pNewlines fun _ =>
  pSeq (pTerm f) fun body =>
  pPure { name := nam, pats := [], body := body }

/-- The span `map_with_span` attaches: from the start of the first consumed
token to the end of the last consumed token. -/
def consumedSpan (ts rest : List (Token × Span)) : Span :=
  let consumed := ts.take (ts.length - rest.length)
  ⟨((consumed.head?.map (fun x => x.2.startPos)).getD 0),
   ((consumed.getLast?.map (fun x => x.2.endPos)).getD 0)⟩

/-- `rule_parser().map_with_span(|rule, span| (rule, span))`. -/
def pRuleSpanned (f : Nat) : ParserM (Rule × Span) := fun ts =>
  match pRule f ts with
  | none => none
  | some (r, rest, ds) => some ((r, consumedSpan ts rest), rest, ds)

/-- The `separated_by(newline+)` loop after the first rule: repeatedly try
one-or-more newlines followed by a rule; a failed attempt (rewound) ends the
loop. The budget starts at the input length; each iteration consumes tokens. -/
def pRulesLoop (f : Nat) : Nat → List (Rule × Span) → ParserM (List (Rule × Span))
  | 0, acc => fun ts => some (acc, ts, [])
  | n + 1, acc => fun ts =>
      match (pSeq pNewlines1 fun _ => pRuleSpanned f) ts with
      | none => some (acc, ts, [])
      | some (r, ts1, ds1) =>
          match pRulesLoop f n (acc ++ [r]) ts1 with
          | none => none
          | some (rs, ts2, ds2) => some (rs, ts2, ds1 ++ ds2)

/-- `parsed_rules`: rules separated by one-or-more newlines, with leading and
trailing newlines allowed (`allow_leading`/`allow_trailing`), possibly zero
rules. -/
def pRules (f : Nat) : ParserM (List (Rule × Span)) := fun ts =>
  let ts0 := ts.dropWhile isNewLineTok
  match pRuleSpanned f ts0 with
  | none => some ([], ts0, [])
  | some (r, ts1, ds1) =>
      match pRulesLoop f ts1.length [r] ts1 with
      | none => none
      | some (rs, ts2, ds2) => some (rs, ts2.dropWhile isNewLineTok, ds1 ++ ds2)

/-- `book_parser` (src/parser/parser.rs lines 175–216): parse the rule list,
then `validate(rules_to_book)` — the book is built and its diagnostics are
emitted alongside whatever the rule parses emitted. -/
def pBook (f : Nat) : ParserM DefinitionBook := fun ts =>
  match pRules f ts with
  | none => none
  | some (rs, rest, ds) =>
      let (book, ds2) := rules_to_book rs
      some (book, rest, ds ++ ds2)

/-- The outcome of a top-level `parse(...).into_result()` call: `Ok` with the
output, or `Err` with the (never empty) error list. -/
inductive PResult (α : Type) where
  | ok (val : α)
  | err (diags : List Diag)
deriving DecidableEq, Repr

/-- `Parser::parse(input).into_result()`: run the parser on the whole input;
a failure or unconsumed input contributes a parser-generated error, and the
call returns `Ok(out)` exactly when the error list ends up empty — any
diagnostics at all produce `Err` and drop the output. -/
def runParser (p : ParserM α) (ts : List (Token × Span)) : PResult α :=
  match p ts with
  | none => .err [.generated]
  | some (a, rest, ds) =>
      if rest.isEmpty then
        if ds.isEmpty then .ok a else .err ds
      else .err (ds ++ [.generated])

/-! ### The lexer

The tokenizer (src/parser/lexer.rs) is not among the repository files provided,
so it is modelled from the spec. Modelled from the spec: identifiers are
`[_a-zA-Z][_a-zA-Z0-9]*` (the grammar comment in src/parser/parser.rs), numbers
are `[0-9]+`, `dup`/`let` are keywords, the lambda glyph is `λ` or `\`, the
operator symbols are those of `displayNumOper`, whitespace separates tokens,
newlines are tokens of their own, and unrecognized input becomes an explicit
error token carrying its span. Spans count characters (all concrete inputs used
below are such that this agrees with byte offsets). -/

/-- Start character of an identifier: `[_a-zA-Z]`. -/
def identStartChar (c : Char) : Bool := c == '_' || c.isAlpha

/-- Continuation character of an identifier: `[_a-zA-Z0-9]`. -/
def identChar (c : Char) : Bool := identStartChar c || c.isDigit

/-- Keyword recognition for a lexed identifier. -/
def keywordOrName (s : String) : Token :=
  if s == "dup" then Token.Dup
  else if s == "let" then Token.Let
  else Token.Name s

/-- Decimal value of a digit run. -/
def digitsToNat (cs : List Char) : Nat :=
  cs.foldl (fun a c => 10 * a + (c.toNat - 48)) 0

/-- Modelled from the spec: one tokenizer step on the first character `c` (with
tail `cs`), continuing through `rec`, which receives the position and the
characters that remain after the consumed token. -/
def lexStep (rec : Nat → List Char → List (Token × Span)) (pos : Nat) (c : Char)
    (cs : List Char) : List (Token × Span) :=
  if c = ' ' ∨ c = '\t' ∨ c = '\r' then rec (pos + 1) cs
  else if c = '\n' then (Token.NewLine, ⟨pos, pos + 1⟩) :: rec (pos + 1) cs
  else if c = '(' then (Token.LParen, ⟨pos, pos + 1⟩) :: rec (pos + 1) cs
  else if c = ')' then (Token.RParen, ⟨pos, pos + 1⟩) :: rec (pos + 1) cs
  else if c = ';' then (Token.Semicolon, ⟨pos, pos + 1⟩) :: rec (pos + 1) cs
  else if c = 'λ' ∨ c = '\\' then (Token.Lambda, ⟨pos, pos + 1⟩) :: rec (pos + 1) cs
  else if c = '+' then (Token.Add, ⟨pos, pos + 1⟩) :: rec (pos + 1) cs
  else if c = '-' then (Token.Sub, ⟨pos, pos + 1⟩) :: rec (pos + 1) cs
  else if c = '*' then (Token.Mul, ⟨pos, pos + 1⟩) :: rec (pos + 1) cs
  else if c = '/' then (Token.Div, ⟨pos, pos + 1⟩) :: rec (pos + 1) cs
  else if c = '%' then (Token.Mod, ⟨pos, pos + 1⟩) :: rec (pos + 1) cs
  else if c = '&' then (Token.And, ⟨pos, pos + 1⟩) :: rec (pos + 1) cs
  else if c = '|' then (Token.Or, ⟨pos, pos + 1⟩) :: rec (pos + 1) cs
  else if c = '^' then (Token.Xor, ⟨pos, pos + 1⟩) :: rec (pos + 1) cs
  else if c = '<' then
    if cs.head? = some '<' then (Token.Shl, ⟨pos, pos + 2⟩) :: rec (pos + 2) cs.tail
    else if cs.head? = some '=' then (Token.Lte, ⟨pos, pos + 2⟩) :: rec (pos + 2) cs.tail
    else (Token.Ltn, ⟨pos, pos + 1⟩) :: rec (pos + 1) cs
  else if c = '>' then
    if cs.head? = some '>' then (Token.Shr, ⟨pos, pos + 2⟩) :: rec (pos + 2) cs.tail
    else if cs.head? = some '=' then (Token.Gte, ⟨pos, pos + 2⟩) :: rec (pos + 2) cs.tail
    else (Token.Gtn, ⟨pos, pos + 1⟩) :: rec (pos + 1) cs
  else if c = '=' then
    if cs.head? = some '=' then (Token.EqualsEquals, ⟨pos, pos + 2⟩) :: rec (pos + 2) cs.tail
    else (Token.Equals, ⟨pos, pos + 1⟩) :: rec (pos + 1) cs
  else if c = '!' then
    if cs.head? = some '=' then (Token.NotEquals, ⟨pos, pos + 2⟩) :: rec (pos + 2) cs.tail
    else (Token.Err, ⟨pos, pos + 1⟩) :: rec (pos + 1) cs
  else if identStartChar c then
    let nameCs := c :: cs.takeWhile identChar
    (keywordOrName (String.mk nameCs), ⟨pos, pos + nameCs.length⟩) ::
      rec (pos + nameCs.length) (cs.dropWhile identChar)
  else if c.isDigit then
    let digCs := c :: cs.takeWhile Char.isDigit
    (Token.Number (digitsToNat digCs), ⟨pos, pos + digCs.length⟩) ::
      rec (pos + digCs.length) (cs.dropWhile Char.isDigit)
  else (Token.Err, ⟨pos, pos + 1⟩) :: rec (pos + 1) cs

/-- Modelled from the spec: the tokenizer. Fuel-based so that it evaluates by
kernel reduction; every step consumes at least one character, so fuel equal to
the input length never runs out. -/
def lexChars : Nat → Nat → List Char → List (Token × Span)
  | 0, _, _ => []
  | _ + 1, _, [] => []
  | fuel + 1, pos, c :: cs => lexStep (fun pos' cs' => lexChars fuel pos' cs') pos c cs

/-- Tokenize a source string. -/
def lex (code : String) : List (Token × Span) := lexChars code.data.length 0 code.data

/-- `parse_term` (src/parser/parser.rs lines 41–44): run the term parser over
the token stream of the source and convert with `into_result`. -/
def parse_term (code : String) : PResult Term :=
  let ts := lex code
  runParser (pTerm (ts.length + 1)) ts

/-- `parse_definition_book` (src/parser/parser.rs lines 37–39): run the book
parser over the token stream of the source and convert with `into_result`. -/
def parse_definition_book (code : String) : PResult DefinitionBook :=
  let ts := lex code
  runParser (pBook (ts.length + 1)) ts

/-! ### The grammar-expressible fragment of `Term`

`Display` emits superposition braces and the erasure star although the grammar
has no production for either, emits lambdas and duplications bare although an
`App`/`NumOp` position only accepts items, and emits names verbatim although the
lexer only produces identifier names of at most `MAX_NAME_LEN` characters
without emitting a diagnostic. The fragment on which rendering is re-parseable
is captured by `goodTerm`. -/

/-- Terms whose rendering is an `Item` of the grammar: a single token
(variable, number) or a parenthesized form (application, numeric operation). -/
def itemShaped : Term → Bool
  | .Var _ => true
  | .Num _ => true
  | .App _ _ => true
  | .NumOp _ _ _ => true
  | _ => false

/-- A name the lexer reads back as the same single name token, without a
length diagnostic: a nonempty `[_a-zA-Z][_a-zA-Z0-9]*` identifier, not a
keyword, of at most `MAX_NAME_LEN` characters. -/
def validName (s : String) : Bool :=
  (match s.data with
   | [] => false
   | c :: rest => identStartChar c && rest.all identChar)
  && s != "dup" && s != "let" && decide (s.length ≤ MAX_NAME_LEN)

/-- The grammar-expressible terms: no `Sup`/`Era`, valid names throughout, and
item-shaped operands in `App`/`NumOp` positions. -/
def goodTerm : Term → Bool
  | .Var n => validName n
  | .Num _ => true
  | .Lam n b => validName n && goodTerm b
  | .App f a => itemShaped f && itemShaped a && goodTerm f && goodTerm a
  | .Dup f s v x => validName f && validName s && goodTerm v && goodTerm x
  | .NumOp _ f s => itemShaped f && itemShaped s && goodTerm f && goodTerm s
  | .Sup _ _ => false
  | .Era => false

/-- The operator token the lexer produces for each operator symbol. -/
def numOperToken : NumOper → Token
  | .Add => .Add
  | .Sub => .Sub
  | .Mul => .Mul
  | .Div => .Div
  | .Mod => .Mod
  | .And => .And
  | .Or => .Or
  | .Xor => .Xor
  | .Shl => .Shl
  | .Shr => .Shr
  | .Ltn => .Ltn
  | .Lte => .Lte
  | .Gtn => .Gtn
  | .Gte => .Gte
  | .Eql => .EqualsEquals
  | .Neq => .NotEquals

/-- The token sequence the rendering of a term lexes to (for good terms; for
`Sup`/`Era` the braces and the star become error/operator tokens). -/
def termTokens : Term → List Token
  | .Lam n b => Token.Lambda :: Token.Name n :: termTokens b
  | .Var n => [Token.Name n]
  | .App f a => Token.LParen :: (termTokens f ++ termTokens a ++ [Token.RParen])
  | .Dup f s v x =>
      Token.Dup :: Token.Name f :: Token.Name s :: Token.Equals ::
        (termTokens v ++ Token.Semicolon :: termTokens x)
  | .Num n => [Token.Number n]
  | .NumOp op f s => Token.LParen :: numOperToken op :: (termTokens f ++ termTokens s ++ [Token.RParen])
  | .Sup f s => Token.Err :: (termTokens f ++ termTokens s ++ [Token.Err])
  | .Era => [Token.Mul]

/-- Fuel needed inside an `Item` position: one level per parenthesis nesting. -/
def dItem : Term → Nat
  | .App f a => 1 + max (dItem f) (dItem a)
  | .NumOp _ f s => 1 + max (dItem f) (dItem s)
  | _ => 0

/-- Fuel needed at a `Term` position. -/
def dTerm : Term → Nat
  | .Lam _ b => 1 + dTerm b
  | .Dup _ _ v x => 1 + max (dTerm v) (dTerm x)
  | .App f a => 2 + max (dItem f) (dItem a)
  | .NumOp _ f s => 2 + max (dItem f) (dItem s)
  | _ => 1

/-- Reference form of the decimal digit list of a number (most significant
first), used to reason about `Nat.repr`; proof-side only. -/
def reprDigits (n : Nat) : List Char :=
  if n < 10 then [Nat.digitChar n]
  else reprDigits (n / 10) ++ [Nat.digitChar (n % 10)]
decreasing_by omega

/-- The token projection of the lexer output in canonical form (full fuel,
position 0); positions only affect spans, never which tokens come out. -/
def lexTokens (cs : List Char) : List Token := (lexChars cs.length 0 cs).map Prod.fst

/-- Characters that may legally follow a rendered term or name inside a larger
rendering: end of input, a space, a semicolon or a closing parenthesis. -/
def sepHead : List Char → Bool
  | [] => true
  | c :: _ => c = ' ' || c = ';' || c = ')'

/-- Spanned-token inputs whose head cannot begin or extend an `Item`: end of
input, a closing parenthesis or a semicolon — exactly what follows a rendered
term inside a larger rendering. -/
def stopHead : List (Token × Span) → Bool
  | [] => true
  | (t, _) :: _ => t == Token.RParen || t == Token.Semicolon

/-! ### Theorems -/

/-- One lexer step maps its token projection independently of positions and of
the continuations, provided the continuations agree token-wise on every suffix
no longer than the tail (the emitted token never depends on the position). -/
theorem lexStep_proj {rec1 rec2 : Nat → List Char → List (Token × Span)}
    (pos1 pos2 : Nat) (c : Char) (cs : List Char)
    (h : ∀ (u : List Char) (p1 p2 : Nat), u.length ≤ cs.length →
      (rec1 p1 u).map Prod.fst = (rec2 p2 u).map Prod.fst) :
    (lexStep rec1 pos1 c cs).map Prod.fst = (lexStep rec2 pos2 c cs).map Prod.fst := by
  have htl : cs.tail.length ≤ cs.length := by cases cs <;> simp
  have hdw : (cs.dropWhile identChar).length ≤ cs.length :=
    (List.dropWhile_sublist identChar (l := cs)).length_le
  have hdw2 : (cs.dropWhile Char.isDigit).length ≤ cs.length :=
    (List.dropWhile_sublist Char.isDigit (l := cs)).length_le
  simp only [lexStep]
  by_cases h1 : c = ' ' ∨ c = '\t' ∨ c = '\r'
  · simp only [if_pos h1]; exact h cs _ _ le_rfl
  simp only [if_neg h1]
  by_cases h2 : c = '\n'
  · simp only [if_pos h2, List.map_cons]; exact congrArg _ (h cs _ _ le_rfl)
  simp only [if_neg h2]
  by_cases h3 : c = '('
  · simp only [if_pos h3, List.map_cons]; exact congrArg _ (h cs _ _ le_rfl)
  simp only [if_neg h3]
  by_cases h4 : c = ')'
  · simp only [if_pos h4, List.map_cons]; exact congrArg _ (h cs _ _ le_rfl)
  simp only [if_neg h4]
  by_cases h5 : c = ';'
  · simp only [if_pos h5, List.map_cons]; exact congrArg _ (h cs _ _ le_rfl)
  simp only [if_neg h5]
  by_cases h6 : c = 'λ' ∨ c = '\\'
  · simp only [if_pos h6, List.map_cons]; exact congrArg _ (h cs _ _ le_rfl)
  simp only [if_neg h6]
  by_cases h7 : c = '+'
  · simp only [if_pos h7, List.map_cons]; exact congrArg _ (h cs _ _ le_rfl)
  simp only [if_neg h7]
  by_cases h8 : c = '-'
  · simp only [if_pos h8, List.map_cons]; exact congrArg _ (h cs _ _ le_rfl)
  simp only [if_neg h8]
  by_cases h9 : c = '*'
  · simp only [if_pos h9, List.map_cons]; exact congrArg _ (h cs _ _ le_rfl)
  simp only [if_neg h9]
  by_cases h10 : c = '/'
  · simp only [if_pos h10, List.map_cons]; exact congrArg _ (h cs _ _ le_rfl)
  simp only [if_neg h10]
  by_cases h11 : c = '%'
  · simp only [if_pos h11, List.map_cons]; exact congrArg _ (h cs _ _ le_rfl)
  simp only [if_neg h11]
  by_cases h12 : c = '&'
  · simp only [if_pos h12, List.map_cons]; exact congrArg _ (h cs _ _ le_rfl)
  simp only [if_neg h12]
  by_cases h13 : c = '|'
  · simp only [if_pos h13, List.map_cons]; exact congrArg _ (h cs _ _ le_rfl)
  simp only [if_neg h13]
  by_cases h14 : c = '^'
  · simp only [if_pos h14, List.map_cons]; exact congrArg _ (h cs _ _ le_rfl)
  simp only [if_neg h14]
  by_cases h15 : c = '<'
  · simp only [if_pos h15]
    by_cases h15a : cs.head? = some '<'
    · simp only [if_pos h15a, List.map_cons]; exact congrArg _ (h cs.tail _ _ htl)
    simp only [if_neg h15a]
    by_cases h15b : cs.head? = some '='
    · simp only [if_pos h15b, List.map_cons]; exact congrArg _ (h cs.tail _ _ htl)
    simp only [if_neg h15b]
    simp only [List.map_cons]; exact congrArg _ (h cs _ _ le_rfl)
  simp only [if_neg h15]
  by_cases h16 : c = '>'
  · simp only [if_pos h16]
    by_cases h16a : cs.head? = some '>'
    · simp only [if_pos h16a, List.map_cons]; exact congrArg _ (h cs.tail _ _ htl)
    simp only [if_neg h16a]
    by_cases h16b : cs.head? = some '='
    · simp only [if_pos h16b, List.map_cons]; exact congrArg _ (h cs.tail _ _ htl)
    simp only [if_neg h16b]
    simp only [List.map_cons]; exact congrArg _ (h cs _ _ le_rfl)
  simp only [if_neg h16]
  by_cases h17 : c = '='
  · simp only [if_pos h17]
    by_cases h17a : cs.head? = some '='
    · simp only [if_pos h17a, List.map_cons]; exact congrArg _ (h cs.tail _ _ htl)
    simp only [if_neg h17a]
    simp only [List.map_cons]; exact congrArg _ (h cs _ _ le_rfl)
  simp only [if_neg h17]
  by_cases h18 : c = '!'
  · simp only [if_pos h18]
    by_cases h18a : cs.head? = some '='
    · simp only [if_pos h18a, List.map_cons]; exact congrArg _ (h cs.tail _ _ htl)
    simp only [if_neg h18a]
    simp only [List.map_cons]; exact congrArg _ (h cs _ _ le_rfl)
  simp only [if_neg h18]
  by_cases h19 : identStartChar c = true
  · simp only [if_pos h19, List.map_cons]; exact congrArg _ (h _ _ _ hdw)
  simp only [if_neg h19]
  by_cases h20 : c.isDigit = true
  · simp only [if_pos h20, List.map_cons]; exact congrArg _ (h _ _ _ hdw2)
  simp only [if_neg h20, List.map_cons]
  exact congrArg _ (h cs _ _ le_rfl)

/-- The token projection of `lexChars` does not depend on the fuel (as long as
it covers the input length) or on the position. -/
theorem lexChars_proj : ∀ (n f pos : Nat) (cs : List Char), cs.length = n → cs.length ≤ f →
    (lexChars f pos cs).map Prod.fst = lexTokens cs := by
  intro n
  induction n using Nat.strong_induction_on with
  | _ n ih =>
    intro f pos cs hn hf
    match f, cs with
    | f, [] => cases f <;> rfl
    | 0, c :: cs' => simp at hf
    | f + 1, c :: cs' =>
        have hsn : cs'.length + 1 = n := by simpa using hn
        have hsf : cs'.length ≤ f := by simp at hf; omega
        rw [show lexChars (f + 1) pos (c :: cs') =
              lexStep (fun p u => lexChars f p u) pos c cs' from rfl]
        rw [show lexTokens (c :: cs') =
              (lexStep (fun p u => lexChars cs'.length p u) 0 c cs').map Prod.fst from rfl]
        apply lexStep_proj
        intro u p1 p2 hu
        have h1 := ih u.length (by omega) f p1 u rfl (by omega)
        have h2 := ih u.length (by omega) cs'.length p2 u rfl hu
        rw [h1, h2]

/-- Fuel at least the length and any position give the canonical token list. -/
theorem lexTokens_eq (f pos : Nat) (cs : List Char) (hf : cs.length ≤ f) :
    (lexChars f pos cs).map Prod.fst = lexTokens cs :=
  lexChars_proj cs.length f pos cs rfl hf

/-- Peeling one already-reduced lexer step off the canonical token list. -/
theorem lexTokens_cons_aux {t : Token} {sp : Span} {f p : Nat} {cs s : List Char}
    (hdef : lexChars cs.length 0 cs = (t, sp) :: lexChars f p s) (hf : s.length ≤ f) :
    lexTokens cs = t :: lexTokens s := by
  unfold lexTokens
  rw [hdef]
  simp only [List.map_cons]
  exact congrArg _ (lexTokens_eq f p s hf)

/-- A leading space is skipped. -/
theorem lexTokens_space (s : List Char) : lexTokens (' ' :: s) = lexTokens s := by
  show (lexChars s.length 1 s).map Prod.fst = lexTokens s
  exact lexTokens_eq _ _ _ le_rfl

/-- The single-character structural tokens. -/
theorem lexTokens_lparen (s : List Char) : lexTokens ('(' :: s) = Token.LParen :: lexTokens s :=
  lexTokens_cons_aux rfl le_rfl

/-- Closing parenthesis. -/
theorem lexTokens_rparen (s : List Char) : lexTokens (')' :: s) = Token.RParen :: lexTokens s :=
  lexTokens_cons_aux rfl le_rfl

/-- Semicolon. -/
theorem lexTokens_semicolon (s : List Char) : lexTokens (';' :: s) = Token.Semicolon :: lexTokens s :=
  lexTokens_cons_aux rfl le_rfl

/-- The lambda glyph. -/
theorem lexTokens_lambda (s : List Char) : lexTokens ('λ' :: s) = Token.Lambda :: lexTokens s :=
  lexTokens_cons_aux rfl le_rfl

/-- An equals sign followed by a space (as `Display` always writes it). -/
theorem lexTokens_equals_space (s : List Char) :
    lexTokens ('=' :: ' ' :: s) = Token.Equals :: lexTokens s :=
  lexTokens_cons_aux rfl (by first
    | omega
    | (simp only [List.append_eq, List.nil_append, List.cons_append, List.length_cons,
        List.length_append, List.length_nil]; omega))

/-- The `dup` keyword followed by a space. -/
theorem lexTokens_dup_kw (s : List Char) :
    lexTokens ('d' :: 'u' :: 'p' :: ' ' :: s) = Token.Dup :: lexTokens s :=
  lexTokens_cons_aux rfl (by first
    | omega
    | (simp only [List.append_eq, List.nil_append, List.cons_append, List.length_cons,
        List.length_append, List.length_nil]; omega))

/-- Each operator symbol followed by a space (as the `NumOp` rendering writes
it) lexes to its operator token. -/
theorem lexTokens_oper (op : NumOper) (s : List Char) :
    lexTokens ((displayNumOper op).data ++ ' ' :: s) = numOperToken op :: lexTokens s := by
  cases op <;> exact lexTokens_cons_aux rfl (by first
    | omega
    | (simp only [List.append_eq, List.nil_append, List.cons_append, List.length_cons,
        List.length_append, List.length_nil]; omega))

/-- A digit is not an identifier-start character (disjoint code ranges). -/
theorem digit_not_identStart (c : Char) (h : c.isDigit = true) : identStartChar c = false := by
  simp only [identStartChar, Char.isAlpha, Char.isUpper, Char.isLower, Char.isDigit,
    Bool.and_eq_true, decide_eq_true_eq, Bool.or_eq_false_iff, beq_eq_false_iff_ne,
    Bool.and_eq_false_iff, decide_eq_false_iff_not, ge_iff_le,
    UInt32.le_def, BitVec.le_def] at h ⊢
  obtain ⟨h1, h2⟩ := h
  have e48 : (UInt32.toBitVec 48).toNat = 48 := rfl
  have e57 : (UInt32.toBitVec 57).toNat = 57 := rfl
  have e65 : (UInt32.toBitVec 65).toNat = 65 := rfl
  have e90 : (UInt32.toBitVec 90).toNat = 90 := rfl
  have e97 : (UInt32.toBitVec 97).toNat = 97 := rfl
  have e122 : (UInt32.toBitVec 122).toNat = 122 := rfl
  refine ⟨?_, ?_, ?_⟩
  · rintro rfl
    revert h1 h2
    decide
  · omega
  · omega

/-- The lexer step at an identifier-start character: munch the identifier,
classify it as keyword or name, continue after it. -/
theorem lexStep_ident_eq {rec : Nat → List Char → List (Token × Span)} {pos : Nat} {c : Char}
    {cs : List Char} (hI : identStartChar c = true) :
    lexStep rec pos c cs =
      (keywordOrName (String.mk (c :: cs.takeWhile identChar)),
        ⟨pos, pos + (c :: cs.takeWhile identChar).length⟩) ::
        rec (pos + (c :: cs.takeWhile identChar).length) (cs.dropWhile identChar) := by
  have n1 : ¬(c = ' ' ∨ c = '\t' ∨ c = '\r') := by rintro (rfl | rfl | rfl) <;> revert hI <;> decide
  have n2 : ¬(c = '\n') := by rintro rfl; revert hI; decide
  have n3 : ¬(c = '(') := by rintro rfl; revert hI; decide
  have n4 : ¬(c = ')') := by rintro rfl; revert hI; decide
  have n5 : ¬(c = ';') := by rintro rfl; revert hI; decide
  have n6 : ¬(c = 'λ' ∨ c = '\\') := by rintro (rfl | rfl) <;> revert hI <;> decide
  have n7 : ¬(c = '+') := by rintro rfl; revert hI; decide
  have n8 : ¬(c = '-') := by rintro rfl; revert hI; decide
  have n9 : ¬(c = '*') := by rintro rfl; revert hI; decide
  have n10 : ¬(c = '/') := by rintro rfl; revert hI; decide
  have n11 : ¬(c = '%') := by rintro rfl; revert hI; decide
  have n12 : ¬(c = '&') := by rintro rfl; revert hI; decide
  have n13 : ¬(c = '|') := by rintro rfl; revert hI; decide
  have n14 : ¬(c = '^') := by rintro rfl; revert hI; decide
  have n15 : ¬(c = '<') := by rintro rfl; revert hI; decide
  have n16 : ¬(c = '>') := by rintro rfl; revert hI; decide
  have n17 : ¬(c = '=') := by rintro rfl; revert hI; decide
  have n18 : ¬(c = '!') := by rintro rfl; revert hI; decide
  simp only [lexStep, if_neg n1, if_neg n2, if_neg n3, if_neg n4, if_neg n5, if_neg n6, if_neg n7, if_neg n8, if_neg n9, if_neg n10, if_neg n11, if_neg n12, if_neg n13, if_neg n14, if_neg n15, if_neg n16, if_neg n17, if_neg n18, if_pos hI]

/-- The lexer step at a digit: munch the digit run, emit its value, continue
after it. -/
theorem lexStep_digit_eq {rec : Nat → List Char → List (Token × Span)} {pos : Nat} {c : Char}
    {cs : List Char} (hD : c.isDigit = true) :
    lexStep rec pos c cs =
      (Token.Number (digitsToNat (c :: cs.takeWhile Char.isDigit)),
        ⟨pos, pos + (c :: cs.takeWhile Char.isDigit).length⟩) ::
        rec (pos + (c :: cs.takeWhile Char.isDigit).length) (cs.dropWhile Char.isDigit) := by
  have n1 : ¬(c = ' ' ∨ c = '\t' ∨ c = '\r') := by rintro (rfl | rfl | rfl) <;> revert hD <;> decide
  have n2 : ¬(c = '\n') := by rintro rfl; revert hD; decide
  have n3 : ¬(c = '(') := by rintro rfl; revert hD; decide
  have n4 : ¬(c = ')') := by rintro rfl; revert hD; decide
  have n5 : ¬(c = ';') := by rintro rfl; revert hD; decide
  have n6 : ¬(c = 'λ' ∨ c = '\\') := by rintro (rfl | rfl) <;> revert hD <;> decide
  have n7 : ¬(c = '+') := by rintro rfl; revert hD; decide
  have n8 : ¬(c = '-') := by rintro rfl; revert hD; decide
  have n9 : ¬(c = '*') := by rintro rfl; revert hD; decide
  have n10 : ¬(c = '/') := by rintro rfl; revert hD; decide
  have n11 : ¬(c = '%') := by rintro rfl; revert hD; decide
  have n12 : ¬(c = '&') := by rintro rfl; revert hD; decide
  have n13 : ¬(c = '|') := by rintro rfl; revert hD; decide
  have n14 : ¬(c = '^') := by rintro rfl; revert hD; decide
  have n15 : ¬(c = '<') := by rintro rfl; revert hD; decide
  have n16 : ¬(c = '>') := by rintro rfl; revert hD; decide
  have n17 : ¬(c = '=') := by rintro rfl; revert hD; decide
  have n18 : ¬(c = '!') := by rintro rfl; revert hD; decide
  have n19 : ¬(identStartChar c = true) := by
    rw [digit_not_identStart c hD]; simp
  simp only [lexStep, if_neg n1, if_neg n2, if_neg n3, if_neg n4, if_neg n5, if_neg n6, if_neg n7, if_neg n8, if_neg n9, if_neg n10, if_neg n11, if_neg n12, if_neg n13, if_neg n14, if_neg n15, if_neg n16, if_neg n17, if_neg n18, if_neg n19, if_pos hD]

/-- A separator-headed suffix starts (if at all) with a character that is
neither an identifier character nor a digit. -/
theorem sepHead_stops (s : List Char) (hs : sepHead s = true) :
    s.takeWhile identChar = [] ∧ s.dropWhile identChar = s ∧
    s.takeWhile Char.isDigit = [] ∧ s.dropWhile Char.isDigit = s := by
  cases s with
  | nil => simp
  | cons c s' =>
      have hc : c = ' ' ∨ c = ';' ∨ c = ')' := by
        simp only [sepHead, Bool.or_eq_true, decide_eq_true_eq] at hs
        tauto
      have h1 : identChar c = false := by rcases hc with rfl | rfl | rfl <;> decide
      have h2 : c.isDigit = false := by rcases hc with rfl | rfl | rfl <;> decide
      simp [List.takeWhile_cons, List.dropWhile_cons, h1, h2]

/-- Lexing a valid name followed by a separator yields exactly its name token. -/
theorem lexTokens_name {nam : String} (hv : validName nam = true) (s : List Char)
    (hs : sepHead s = true) :
    lexTokens (nam.data ++ s) = Token.Name nam :: lexTokens s := by
  obtain ⟨data⟩ := nam
  match data, hv with
  | [], hv => simp [validName] at hv
  | c :: rest, hv =>
      simp only [validName, Bool.and_eq_true, decide_eq_true_eq, bne_iff_ne, ne_eq] at hv
      obtain ⟨⟨⟨⟨hI, hall⟩, hnd⟩, hnl⟩, hlen⟩ := hv
      have hallp : ∀ x ∈ rest, identChar x = true := by
        intro x hx
        exact List.all_eq_true.mp hall x hx
      obtain ⟨ht1, hd1, -, -⟩ := sepHead_stops s hs
      have htw : (rest ++ s).takeWhile identChar = rest := by
        rw [List.takeWhile_append_of_pos hallp, ht1, List.append_nil]
      have hdw : (rest ++ s).dropWhile identChar = s := by
        rw [List.dropWhile_append_of_pos hallp, hd1]
      show lexTokens (c :: (rest ++ s)) = _
      unfold lexTokens
      rw [show lexChars (c :: (rest ++ s)).length 0 (c :: (rest ++ s)) =
            lexStep (fun p v => lexChars (rest ++ s).length p v) 0 c (rest ++ s) from rfl]
      rw [lexStep_ident_eq hI, htw, hdw]
      simp only [List.map_cons]
      congr 1
      · congr 1
        unfold keywordOrName
        rw [if_neg (by simpa using hnd), if_neg (by simpa using hnl)]
      · exact lexTokens_eq _ _ _ (by simp)


/-- `Nat.toDigitsCore` with enough fuel computes the reference digit list. -/
theorem toDigitsCore_eq_reprDigits :
    ∀ (fuel n : Nat) (ds : List Char), n < fuel →
      Nat.toDigitsCore 10 fuel n ds = reprDigits n ++ ds := by
  intro fuel
  induction fuel with
  | zero => intro n ds h; omega
  | succ f ih =>
      intro n ds h
      rw [Nat.toDigitsCore]
      by_cases h0 : n / 10 = 0
      · rw [if_pos h0, reprDigits, if_pos (by omega)]
        have : n % 10 = n := by omega
        rw [this]
        rfl
      · have hrpr : reprDigits n = reprDigits (n / 10) ++ [Nat.digitChar (n % 10)] := by
          conv_lhs => rw [reprDigits]
          rw [if_neg (by omega : ¬n < 10)]
        rw [if_neg h0, ih (n / 10) _ (by omega), hrpr]
        simp

/-- The characters of `Nat.repr` are the reference digit list. -/
theorem repr_data (n : Nat) : (Nat.repr n).data = reprDigits n := by
  show (Nat.toDigits 10 n).asString.data = reprDigits n
  unfold Nat.toDigits
  rw [toDigitsCore_eq_reprDigits (n + 1) n [] (by omega)]
  simp [List.asString]

/-- `digitChar` of a value below ten is a digit character. -/
theorem digitChar_isDigit (k : Nat) (h : k < 10) : (Nat.digitChar k).isDigit = true := by
  interval_cases k <;> decide

/-- `digitChar` of a value below ten has the expected code point. -/
theorem digitChar_toNat (k : Nat) (h : k < 10) : (Nat.digitChar k).toNat = 48 + k := by
  interval_cases k <;> decide

/-- Every character of the reference digit list is a digit. -/
theorem reprDigits_all_digit (n : Nat) : ∀ c ∈ reprDigits n, c.isDigit = true := by
  induction n using Nat.strong_induction_on with
  | _ n ih =>
      rw [reprDigits]
      by_cases h : n < 10
      · rw [if_pos h]
        intro c hc
        simp only [List.mem_singleton] at hc
        subst hc
        exact digitChar_isDigit n h
      · rw [if_neg h]
        intro c hc
        rcases List.mem_append.mp hc with hc | hc
        · exact ih (n / 10) (by omega) c hc
        · simp only [List.mem_singleton] at hc
          subst hc
          exact digitChar_isDigit (n % 10) (by omega)

/-- The reference digit list is never empty. -/
theorem reprDigits_ne_nil (n : Nat) : reprDigits n ≠ [] := by
  rw [reprDigits]
  by_cases h : n < 10
  · rw [if_pos h]; simp
  · rw [if_neg h]; simp

/-- Folding the digit evaluation over a trailing digit. -/
theorem digitsToNat_append_singleton (l : List Char) (d : Char) :
    digitsToNat (l ++ [d]) = 10 * digitsToNat l + (d.toNat - 48) := by
  unfold digitsToNat
  rw [List.foldl_append]
  rfl

/-- Evaluating the reference digit list recovers the number. -/
theorem digitsToNat_reprDigits (n : Nat) : digitsToNat (reprDigits n) = n := by
  induction n using Nat.strong_induction_on with
  | _ n ih =>
      rw [reprDigits]
      by_cases h : n < 10
      · rw [if_pos h]
        show 10 * 0 + ((Nat.digitChar n).toNat - 48) = n
        rw [digitChar_toNat n h]
        omega
      · rw [if_neg h, digitsToNat_append_singleton, ih (n / 10) (by omega),
          digitChar_toNat (n % 10) (by omega)]
        omega

/-- Lexing a rendered number followed by a separator yields its number token. -/
theorem lexTokens_number (n : Nat) (s : List Char) (hs : sepHead s = true) :
    lexTokens ((Nat.repr n).data ++ s) = Token.Number n :: lexTokens s := by
  rw [repr_data]
  obtain ⟨c, rest, hcr⟩ := List.exists_cons_of_ne_nil (reprDigits_ne_nil n)
  have hcd : c.isDigit = true := by
    apply reprDigits_all_digit n
    rw [hcr]; simp
  have hrd : ∀ x ∈ rest, x.isDigit = true := by
    intro x hx
    apply reprDigits_all_digit n
    rw [hcr]; simp [hx]
  obtain ⟨-, -, ht1, hd1⟩ := sepHead_stops s hs
  have htw : (rest ++ s).takeWhile Char.isDigit = rest := by
    rw [List.takeWhile_append_of_pos hrd, ht1, List.append_nil]
  have hdw : (rest ++ s).dropWhile Char.isDigit = s := by
    rw [List.dropWhile_append_of_pos hrd, hd1]
  rw [hcr]
  show lexTokens (c :: (rest ++ s)) = _
  unfold lexTokens
  rw [show lexChars (c :: (rest ++ s)).length 0 (c :: (rest ++ s)) =
        lexStep (fun p v => lexChars (rest ++ s).length p v) 0 c (rest ++ s) from rfl]
  rw [lexStep_digit_eq hcd, htw, hdw]
  simp only [List.map_cons]
  congr 1
  · congr 1
    rw [← hcr, digitsToNat_reprDigits]
  · exact lexTokens_eq _ _ _ (by simp)

/-- Rendering a grammar-expressible term and lexing the result (followed by any
separator-headed suffix) produces exactly its token sequence. -/
theorem lexTokens_display (t : Term) :
    goodTerm t = true → ∀ s : List Char, sepHead s = true →
      lexTokens ((displayTerm t).data ++ s) = termTokens t ++ lexTokens s := by
  have dLam : ("λ" : String).data = ['λ'] := rfl
  have dSp : (" " : String).data = [' '] := rfl
  have dLp : ("(" : String).data = ['('] := rfl
  have dRp : (")" : String).data = [')'] := rfl
  have dDup : ("dup " : String).data = ['d', 'u', 'p', ' '] := rfl
  have dEq : (" = " : String).data = [' ', '=', ' '] := rfl
  have dSemi : ("; " : String).data = [';', ' '] := rfl
  induction t with
  | Lam nam bod ih =>
      intro hg s hs
      simp only [goodTerm, Bool.and_eq_true] at hg
      obtain ⟨hv, hb⟩ := hg
      simp only [displayTerm, String.data_append, dLam, dSp, List.append_assoc,
        List.cons_append, List.nil_append]
      rw [lexTokens_lambda, lexTokens_name hv _ (by simp [sepHead]), lexTokens_space,
        ih hb s hs]
      simp [termTokens]
  | Var nam =>
      intro hg s hs
      simp only [goodTerm] at hg
      simp only [displayTerm]
      rw [lexTokens_name hg s hs]
      simp [termTokens]
  | App fun_ arg ihf iha =>
      intro hg s hs
      simp only [goodTerm, Bool.and_eq_true] at hg
      obtain ⟨⟨⟨-, -⟩, hf⟩, ha⟩ := hg
      simp only [displayTerm, String.data_append, dLp, dSp, dRp, List.append_assoc,
        List.cons_append, List.nil_append]
      rw [lexTokens_lparen, ihf hf _ (by simp [sepHead]), lexTokens_space,
        iha ha _ (by simp [sepHead]), lexTokens_rparen]
      simp [termTokens]
  | Dup fst snd val nxt ihv ihx =>
      intro hg s hs
      simp only [goodTerm, Bool.and_eq_true] at hg
      obtain ⟨⟨⟨hv1, hv2⟩, hval⟩, hnxt⟩ := hg
      simp only [displayTerm, String.data_append, dDup, dSp, dEq, dSemi, List.append_assoc,
        List.cons_append, List.nil_append]
      rw [lexTokens_dup_kw, lexTokens_name hv1 _ (by simp [sepHead]), lexTokens_space,
        lexTokens_name hv2 _ (by simp [sepHead]), lexTokens_space, lexTokens_equals_space,
        ihv hval _ (by simp [sepHead]), lexTokens_semicolon, lexTokens_space, ihx hnxt s hs]
      simp [termTokens]
  | Num v =>
      intro hg s hs
      simp only [displayTerm]
      rw [lexTokens_number v s hs]
      simp [termTokens]
  | NumOp op fst snd ihf iha =>
      intro hg s hs
      simp only [goodTerm, Bool.and_eq_true] at hg
      obtain ⟨⟨⟨-, -⟩, hf⟩, ha⟩ := hg
      simp only [displayTerm, String.data_append, dLp, dSp, dRp, List.append_assoc,
        List.cons_append, List.nil_append]
      rw [lexTokens_lparen, lexTokens_oper, ihf hf _ (by simp [sepHead]), lexTokens_space,
        iha ha _ (by simp [sepHead]), lexTokens_rparen]
      simp [termTokens]
  | Sup fst snd ihf iha =>
      intro hg
      simp [goodTerm] at hg
  | Era =>
      intro hg
      simp [goodTerm] at hg

/-- A failing first parser fails the sequence. -/
theorem pSeq_none_left {α β : Type} {p : ParserM α} {k : α → ParserM β} {ts}
    (h : p ts = none) : pSeq p k ts = none := by
  simp [pSeq, h]

/-- Composing two successful runs. -/
theorem pSeq_some {α β : Type} {p : ParserM α} {k : α → ParserM β} {ts a ts1 ds1 b ts2 ds2}
    (h1 : p ts = some (a, ts1, ds1)) (h2 : k a ts1 = some (b, ts2, ds2)) :
    pSeq p k ts = some (b, ts2, ds1 ++ ds2) := by
  simp [pSeq, h1, h2]

/-- A token parser fails on a different head token. -/
theorem pTok_ne {t t' : Token} {sp r} (h : t' ≠ t) : pTok t ((t', sp) :: r) = none := by
  simp [pTok, h]

/-- A token parser consumes its own token. -/
theorem pTok_eq (t : Token) (sp : Span) (r : List (Token × Span)) :
    pTok t ((t, sp) :: r) = some ((), r, []) := by
  simp [pTok]

/-- The newline skipper does nothing when the head is not a newline. -/
theorem pNewlines_noop {ts : List (Token × Span)}
    (h : (ts.map Prod.fst).head? ≠ some Token.NewLine) : pNewlines ts = some ((), ts, []) := by
  match ts with
  | [] => rfl
  | (t, sp) :: r =>
      have ht : t ≠ Token.NewLine := by simpa using h
      simp [pNewlines, List.dropWhile_cons, isNewLineTok, ht]

/-- The name parser on a short-enough valid name emits no diagnostic. -/
theorem pName_good {nam : String} (h : validName nam = true) (sp : Span)
    (r : List (Token × Span)) : pName ((Token.Name nam, sp) :: r) = some (nam, r, []) := by
  have hlen : ¬nam.length > MAX_NAME_LEN := by
    simp only [validName, Bool.and_eq_true, decide_eq_true_eq] at h
    omega
  simp [pName, hlen]

/-- The var parser on a valid name token. -/
theorem pVar_name {nam : String} (h : validName nam = true) (sp : Span)
    (r : List (Token × Span)) : pVar ((Token.Name nam, sp) :: r) = some (Term.Var nam, r, []) := by
  simp [pVar, pSeq, pName_good h, pPure]

/-- The item parser fails where no item can start. -/
theorem pItem_stop {pt : ParserM Term} {rest : List (Token × Span)}
    (h : stopHead rest = true) : pItem pt rest = none := by
  match rest with
  | [] => rfl
  | (t, sp) :: r =>
      have : t = Token.RParen ∨ t = Token.Semicolon := by
        simpa [stopHead, beq_iff_eq] using h
      rcases this with rfl | rfl <;> rfl

/-- The greedy application loop stops where no item can start. -/
theorem pAppArgs_stop {pt : ParserM Term} (n : Nat) (acc : Term)
    {rest : List (Token × Span)} (h : stopHead rest = true) :
    pAppArgs (pItem pt) n acc rest = some (acc, rest, []) := by
  cases n <;> simp [pAppArgs, pItem_stop h]

/-- The item parser fails on an operator token. -/
theorem pItem_oper {pt : ParserM Term} (op : NumOper) (sp : Span) (r : List (Token × Span)) :
    pItem pt ((numOperToken op, sp) :: r) = none := by
  cases op <;> rfl

/-- The operator select on an operator token. -/
theorem pNumOper_oper (op : NumOper) (sp : Span) (r : List (Token × Span)) :
    pNumOper ((numOperToken op, sp) :: r) = some (op, r, []) := by
  cases op <;> rfl

/-- The operator select fails on a token that is no operator. -/
theorem pNumOper_none {t : Token} {sp r} (h : numOperOfToken t = none) :
    pNumOper ((t, sp) :: r) = none := by
  simp [pNumOper, h]

/-- A failing item fails the application alternative. -/
theorem pApp_none {pt : ParserM Term} {ts} (h : pItem pt ts = none) : pApp pt ts = none := by
  simp [pApp, h]

/-- The nonempty token rendering of a term. -/
theorem termTokens_ne_nil (t : Term) : termTokens t ≠ [] := by
  cases t <;> simp [termTokens]

/-- The token rendering never starts with a newline token. -/
theorem termTokens_head_ne_newline (t : Term) :
    (termTokens t).head? ≠ some Token.NewLine := by
  cases t <;> simp [termTokens]

/-- The head token of an item-shaped rendering starts no other alternative. -/
theorem itemShaped_head (F : Term) (hF : itemShaped F = true) :
    ∃ t0 tks, termTokens F = t0 :: tks ∧ t0 ≠ Token.Lambda ∧ t0 ≠ Token.Dup ∧
      t0 ≠ Token.Let ∧ numOperOfToken t0 = none ∧ t0 ≠ Token.NewLine := by
  cases F with
  | Var n => exact ⟨Token.Name n, [], rfl, by simp, by simp, by simp, rfl, by simp⟩
  | Num v => exact ⟨Token.Number v, [], rfl, by simp, by simp, by simp, rfl, by simp⟩
  | App f a =>
      exact ⟨Token.LParen, _, rfl, by simp, by simp, by simp, rfl, by simp⟩
  | NumOp op f a =>
      exact ⟨Token.LParen, _, rfl, by simp, by simp, by simp, rfl, by simp⟩
  | Lam n b => simp [itemShaped] at hF
  | Dup a b v x => simp [itemShaped] at hF
  | Sup a b => simp [itemShaped] at hF
  | Era => simp [itemShaped] at hF

/-- Splitting a spanned list along a token-projection split. -/
theorem map_fst_split {ts : List (Token × Span)} {A B : List Token}
    (h : ts.map Prod.fst = A ++ B) :
    ∃ ts1 ts2, ts = ts1 ++ ts2 ∧ ts1.map Prod.fst = A ∧ ts2.map Prod.fst = B := by
  induction A generalizing ts with
  | nil => exact ⟨[], ts, rfl, rfl, h⟩
  | cons a A ih =>
      match ts, h with
      | (t, sp) :: ts', h =>
          simp only [List.map_cons, List.cons_append, List.cons.injEq] at h
          obtain ⟨rfl, h2⟩ := h
          obtain ⟨ts1, ts2, rfl, hm1, hm2⟩ := ih h2
          exact ⟨(t, sp) :: ts1, ts2, rfl, by simp [hm1], hm2⟩

/-- Extracting the head of a spanned list from its token projection. -/
theorem map_fst_cons {ts : List (Token × Span)} {a : Token} {A : List Token}
    (h : ts.map Prod.fst = a :: A) :
    ∃ sp ts', ts = (a, sp) :: ts' ∧ ts'.map Prod.fst = A := by
  match ts, h with
  | (t, sp) :: ts', h =>
      simp only [List.map_cons, List.cons.injEq] at h
      obtain ⟨rfl, h2⟩ := h
      exact ⟨sp, ts', rfl, h2⟩

/-- Parsing the token rendering of a grammar-expressible term: at a `Term`
position (with enough fuel and a non-item continuation) the term parser
consumes exactly the rendering and returns the term with no diagnostics; at an
`Item` position the same holds for item-shaped terms with any continuation. -/
theorem parse_termTokens (t : Term) :
    goodTerm t = true →
      (∀ f, dTerm t ≤ f → ∀ (ts rest : List (Token × Span)), ts.map Prod.fst = termTokens t →
        stopHead rest = true → pTerm f (ts ++ rest) = some (t, rest, [])) ∧
      (itemShaped t = true → ∀ f, dItem t ≤ f → ∀ (ts rest : List (Token × Span)),
        ts.map Prod.fst = termTokens t → pItem (pTerm f) (ts ++ rest) = some (t, rest, [])) := by
  induction t with
  | Var nam =>
      intro hg
      have hv : validName nam = true := by simpa [goodTerm] using hg
      have L1 : ∀ f (ts rest : List (Token × Span)), ts.map Prod.fst = termTokens (Term.Var nam) →
          pItem (pTerm f) (ts ++ rest) = some (Term.Var nam, rest, []) := by
        intro f ts rest hts
        obtain ⟨sp, ts', rfl, hts'⟩ := map_fst_cons (by simpa [termTokens] using hts)
        have hnil : ts' = [] := by simpa using hts'
        subst hnil
        simp only [List.cons_append, List.nil_append]
        simp [pItem, pChoice, pVar_name hv]
      refine ⟨?_, fun _ f _ => L1 f⟩
      intro f hf ts rest hts hrest
      have hf1 : 1 ≤ f := by simpa [dTerm] using hf
      obtain ⟨f, rfl⟩ : ∃ f', f = f' + 1 := ⟨f - 1, by omega⟩
      have happ : pApp (pTerm f) (ts ++ rest) = some (Term.Var nam, rest, []) := by
        simp [pApp, L1 f ts rest hts, pAppArgs_stop _ _ hrest]
      obtain ⟨sp, ts', rfl, hts'⟩ := map_fst_cons (by simpa [termTokens] using hts)
      have hnil : ts' = [] := by simpa using hts'
      subst hnil
      have hlam : pLam (pTerm f) (((Token.Name nam, sp) :: []) ++ rest) = none :=
        pSeq_none_left (pTok_ne (by simp))
      simp only [List.cons_append, List.nil_append] at happ hlam ⊢
      rw [pTerm]
      simp [pChoice, hlam, happ]
  | Num v =>
      intro hg
      have L1 : ∀ f (ts rest : List (Token × Span)), ts.map Prod.fst = termTokens (Term.Num v) →
          pItem (pTerm f) (ts ++ rest) = some (Term.Num v, rest, []) := by
        intro f ts rest hts
        obtain ⟨sp, ts', rfl, hts'⟩ := map_fst_cons (by simpa [termTokens] using hts)
        have hnil : ts' = [] := by simpa using hts'
        subst hnil
        simp only [List.cons_append, List.nil_append]
        have hvar : pVar ((Token.Number v, sp) :: rest) = none := rfl
        have hnum : pNum ((Token.Number v, sp) :: rest) = some (Term.Num v, rest, []) := rfl
        simp [pItem, pChoice, hvar, hnum]
      refine ⟨?_, fun _ f _ => L1 f⟩
      intro f hf ts rest hts hrest
      have hf1 : 1 ≤ f := by simpa [dTerm] using hf
      obtain ⟨f, rfl⟩ : ∃ f', f = f' + 1 := ⟨f - 1, by omega⟩
      have happ : pApp (pTerm f) (ts ++ rest) = some (Term.Num v, rest, []) := by
        simp [pApp, L1 f ts rest hts, pAppArgs_stop _ _ hrest]
      obtain ⟨sp, ts', rfl, hts'⟩ := map_fst_cons (by simpa [termTokens] using hts)
      have hnil : ts' = [] := by simpa using hts'
      subst hnil
      have hlam : pLam (pTerm f) (((Token.Number v, sp) :: []) ++ rest) = none :=
        pSeq_none_left (pTok_ne (by simp))
      simp only [List.cons_append, List.nil_append] at happ hlam ⊢
      rw [pTerm]
      simp [pChoice, hlam, happ]
  | Lam nam bod ih =>
      intro hg
      simp only [goodTerm, Bool.and_eq_true] at hg
      obtain ⟨hv, hb⟩ := hg
      have ih2 := (ih hb).1
      refine ⟨?_, fun hI => by simp [itemShaped] at hI⟩
      intro f hf ts rest hts hrest
      have hf1 : 1 + dTerm bod ≤ f := by simpa [dTerm] using hf
      obtain ⟨f, rfl⟩ : ∃ f', f = f' + 1 := ⟨f - 1, by omega⟩
      have hts' : ts.map Prod.fst = Token.Lambda :: Token.Name nam :: termTokens bod := by
        simpa [termTokens] using hts
      obtain ⟨sp1, ts1, rfl, h1⟩ := map_fst_cons hts'
      obtain ⟨sp2, ts2, rfl, h2⟩ := map_fst_cons h1
      have hbod : pTerm f (ts2 ++ rest) = some (bod, rest, []) :=
        ih2 f (by omega) ts2 rest h2 hrest
      have hlam : pLam (pTerm f)
          ((Token.Lambda, sp1) :: (Token.Name nam, sp2) :: (ts2 ++ rest)) =
          some (Term.Lam nam bod, rest, []) := by
        simp [pLam, pSeq, pTok, pName_good hv, hbod, pPure]
      simp only [List.cons_append]
      rw [pTerm]
      simp [pChoice, hlam]
  | App fun_ arg ihf iha =>
      intro hg
      simp only [goodTerm, Bool.and_eq_true] at hg
      obtain ⟨⟨⟨hiF, hiA⟩, hgF⟩, hgA⟩ := hg
      have L1F := (ihf hgF).2 hiF
      have L1A := (iha hgA).2 hiA
      have L1 : ∀ f, dItem (Term.App fun_ arg) ≤ f → ∀ ts rest,
          ts.map Prod.fst = termTokens (Term.App fun_ arg) →
          pItem (pTerm f) (ts ++ rest) = some (Term.App fun_ arg, rest, []) := by
        intro f hf ts rest hts
        have hts' : ts.map Prod.fst =
            Token.LParen :: (termTokens fun_ ++ (termTokens arg ++ [Token.RParen])) := by
          simpa [termTokens, List.append_assoc] using hts
        obtain ⟨sp0, ts', rfl, h1⟩ := map_fst_cons hts'
        obtain ⟨tsF, ts'', rfl, hF, h2⟩ := map_fst_split h1
        obtain ⟨tsA, tsr, rfl, hA, h3⟩ := map_fst_split h2
        obtain ⟨spr, tsnil, rfl, h4⟩ := map_fst_cons h3
        obtain rfl : tsnil = [] := by simpa using h4
        have hff : 1 + max (dItem fun_) (dItem arg) ≤ f := by simpa [dItem] using hf
        obtain ⟨f2, rfl⟩ : ∃ g, f = g + 1 := ⟨f - 1, by omega⟩
        obtain ⟨t0, tks, hFtok, hne1, hne2, hne3, hop, hnl⟩ := itemShaped_head fun_ hiF
        obtain ⟨spf, tsF', hTsF, hFm⟩ := map_fst_cons (hF.trans hFtok)
        have hInF : pItem (pTerm f2) (tsF ++ (tsA ++ (Token.RParen, spr) :: rest)) =
            some (fun_, tsA ++ (Token.RParen, spr) :: rest, []) :=
          L1F f2 (by omega) tsF (tsA ++ (Token.RParen, spr) :: rest) hF
        have hInA : pItem (pTerm f2) (tsA ++ (Token.RParen, spr) :: rest) =
            some (arg, (Token.RParen, spr) :: rest, []) :=
          L1A f2 (by omega) tsA ((Token.RParen, spr) :: rest) hA
        have hFold : pAppArgs (pItem (pTerm f2)) (tsA.length + (rest.length + 1))
            fun_ (tsA ++ (Token.RParen, spr) :: rest) =
            some (Term.App fun_ arg, (Token.RParen, spr) :: rest, []) := by
          rw [show tsA.length + (rest.length + 1) = tsA.length + rest.length + 1 from by omega]
          rw [pAppArgs]
          simp only [hInA]
          rw [pAppArgs_stop (tsA.length + rest.length) (Term.App fun_ arg)
            (show stopHead ((Token.RParen, spr) :: rest) = true by simp [stopHead])]
          simp
        have hInnerApp : pApp (pTerm f2) (tsF ++ (tsA ++ (Token.RParen, spr) :: rest)) =
            some (Term.App fun_ arg, (Token.RParen, spr) :: rest, []) := by
          simp [pApp, hInF, hFold]
        have hInnerTerm : pTerm (f2 + 1) (tsF ++ (tsA ++ (Token.RParen, spr) :: rest)) =
            some (Term.App fun_ arg, (Token.RParen, spr) :: rest, []) := by
          have hlamN : pLam (pTerm f2) (tsF ++ (tsA ++ (Token.RParen, spr) :: rest)) = none := by
            rw [hTsF]
            simp only [List.cons_append]
            exact pSeq_none_left (pTok_ne hne1)
          rw [pTerm]
          simp [pChoice, hlamN, hInnerApp]
        have hnlF : pNewlines (tsF ++ (tsA ++ (Token.RParen, spr) :: rest)) =
            some ((), tsF ++ (tsA ++ (Token.RParen, spr) :: rest), []) := by
          apply pNewlines_noop
          rw [hTsF]
          simpa using hnl
        have hnlR : pNewlines ((Token.RParen, spr) :: rest) =
            some ((), (Token.RParen, spr) :: rest, []) := pNewlines_noop (by simp)
        have hnested : pNested (pTerm (f2 + 1))
            ((Token.LParen, sp0) :: (tsF ++ (tsA ++ (Token.RParen, spr) :: rest))) =
            some (Term.App fun_ arg, rest, []) := by
          simp [pNested, pSeq, pTok, hnlF, hInnerTerm, hnlR, pPure]
        have hv0 : pVar ((Token.LParen, sp0) :: (tsF ++ (tsA ++ (Token.RParen, spr) :: rest))) = none := rfl
        have hn0 : pNum ((Token.LParen, sp0) :: (tsF ++ (tsA ++ (Token.RParen, spr) :: rest))) = none := rfl
        simp only [List.cons_append, List.append_assoc, List.singleton_append]
        simp [pItem, pChoice, hv0, hn0, hnested]
      refine ⟨?_, fun _ => L1⟩
      intro f hf ts rest hts hrest
      have hff : 1 + dItem (Term.App fun_ arg) ≤ f := by
        simp only [dTerm, dItem] at hf ⊢
        omega
      obtain ⟨f1, rfl⟩ : ∃ g, f = g + 1 := ⟨f - 1, by omega⟩
      have hitem := L1 f1 (by omega) ts rest hts
      have happ : pApp (pTerm f1) (ts ++ rest) = some (Term.App fun_ arg, rest, []) := by
        simp [pApp, hitem, pAppArgs_stop _ _ hrest]
      have hts' : ts.map Prod.fst =
          Token.LParen :: (termTokens fun_ ++ (termTokens arg ++ [Token.RParen])) := by
        simpa [termTokens, List.append_assoc] using hts
      obtain ⟨sp0, ts', rfl, h1⟩ := map_fst_cons hts'
      simp only [List.cons_append] at happ ⊢
      have hlamN : pLam (pTerm f1) ((Token.LParen, sp0) :: (ts' ++ rest)) = none :=
        pSeq_none_left (pTok_ne (by simp))
      rw [pTerm]
      simp [pChoice, hlamN, happ]
  | Dup fst snd val nxt ihv ihx =>
      intro hg
      simp only [goodTerm, Bool.and_eq_true] at hg
      obtain ⟨⟨⟨hv1, hv2⟩, hgv⟩, hgx⟩ := hg
      have ihv2 := (ihv hgv).1
      have ihx2 := (ihx hgx).1
      refine ⟨?_, fun hI => by simp [itemShaped] at hI⟩
      intro f hf ts rest hts hrest
      have hf1 : 1 + max (dTerm val) (dTerm nxt) ≤ f := by simpa [dTerm] using hf
      obtain ⟨f, rfl⟩ : ∃ g, f = g + 1 := ⟨f - 1, by omega⟩
      have hts' : ts.map Prod.fst = Token.Dup :: Token.Name fst :: Token.Name snd ::
          Token.Equals :: (termTokens val ++ Token.Semicolon :: termTokens nxt) := by
        simpa [termTokens] using hts
      obtain ⟨sp1, ts1, rfl, h1⟩ := map_fst_cons hts'
      obtain ⟨sp2, ts2, rfl, h2⟩ := map_fst_cons h1
      obtain ⟨sp3, ts3, rfl, h3⟩ := map_fst_cons h2
      obtain ⟨sp4, ts4, rfl, h4⟩ := map_fst_cons h3
      obtain ⟨tsv, ts5, rfl, hV, h5⟩ := map_fst_split h4
      obtain ⟨sp5, tsx, rfl, h6⟩ := map_fst_cons h5
      have hval : pTerm f (tsv ++ ((Token.Semicolon, sp5) :: (tsx ++ rest))) =
          some (val, (Token.Semicolon, sp5) :: (tsx ++ rest), []) :=
        ihv2 f (by omega) tsv ((Token.Semicolon, sp5) :: (tsx ++ rest)) hV (by simp [stopHead])
      have hnxt : pTerm f (tsx ++ rest) = some (nxt, rest, []) :=
        ihx2 f (by omega) tsx rest h6 hrest
      have hnlX : pNewlines (tsx ++ rest) = some ((), tsx ++ rest, []) := by
        apply pNewlines_noop
        rw [List.map_append, h6]
        cases hx : termTokens nxt with
        | nil => exact absurd hx (termTokens_ne_nil nxt)
        | cons a l =>
            have hh := termTokens_head_ne_newline nxt
            rw [hx] at hh
            simpa using hh
      have hdup : pDup (pTerm f) ((Token.Dup, sp1) :: (Token.Name fst, sp2) ::
          (Token.Name snd, sp3) :: (Token.Equals, sp4) ::
          (tsv ++ ((Token.Semicolon, sp5) :: (tsx ++ rest)))) =
          some (Term.Dup fst snd val nxt, rest, []) := by
        simp only [pDup]
        refine pSeq_some (pTok_eq _ _ _) ?_
        refine pSeq_some (pName_good hv1 _ _) ?_
        refine pSeq_some (pName_good hv2 _ _) ?_
        refine pSeq_some (pTok_eq _ _ _) ?_
        refine pSeq_some hval ?_
        refine pSeq_some (pTok_eq _ _ _) ?_
        refine pSeq_some hnlX ?_
        refine pSeq_some hnxt ?_
        rfl
      have hlamN : pLam (pTerm f) ((Token.Dup, sp1) :: (Token.Name fst, sp2) ::
          (Token.Name snd, sp3) :: (Token.Equals, sp4) ::
          (tsv ++ ((Token.Semicolon, sp5) :: (tsx ++ rest)))) = none :=
        pSeq_none_left (pTok_ne (by simp))
      have happN : pApp (pTerm f) ((Token.Dup, sp1) :: (Token.Name fst, sp2) ::
          (Token.Name snd, sp3) :: (Token.Equals, sp4) ::
          (tsv ++ ((Token.Semicolon, sp5) :: (tsx ++ rest)))) = none :=
        pApp_none rfl
      simp only [List.cons_append, List.append_assoc, List.singleton_append]
      rw [pTerm]
      simp [pChoice, hlamN, happN, hdup]
  | NumOp op fst snd ihf iha =>
      intro hg
      simp only [goodTerm, Bool.and_eq_true] at hg
      obtain ⟨⟨⟨hiF, hiA⟩, hgF⟩, hgA⟩ := hg
      have L1F := (ihf hgF).2 hiF
      have L1A := (iha hgA).2 hiA
      have hno1 : numOperToken op ≠ Token.Lambda := by cases op <;> simp [numOperToken]
      have hno2 : numOperToken op ≠ Token.Dup := by cases op <;> simp [numOperToken]
      have hno3 : numOperToken op ≠ Token.Let := by cases op <;> simp [numOperToken]
      have hno4 : numOperToken op ≠ Token.NewLine := by cases op <;> simp [numOperToken]
      have L1 : ∀ f, dItem (Term.NumOp op fst snd) ≤ f → ∀ ts rest,
          ts.map Prod.fst = termTokens (Term.NumOp op fst snd) →
          pItem (pTerm f) (ts ++ rest) = some (Term.NumOp op fst snd, rest, []) := by
        intro f hf ts rest hts
        have hts' : ts.map Prod.fst = Token.LParen :: numOperToken op ::
            (termTokens fst ++ (termTokens snd ++ [Token.RParen])) := by
          simpa [termTokens, List.append_assoc] using hts
        obtain ⟨sp0, ts', rfl, h1⟩ := map_fst_cons hts'
        obtain ⟨spo, ts'', rfl, h2⟩ := map_fst_cons h1
        obtain ⟨tsF, ts3, rfl, hF, h3⟩ := map_fst_split h2
        obtain ⟨tsA, tsr, rfl, hA, h4⟩ := map_fst_split h3
        obtain ⟨spr, tsnil, rfl, h5⟩ := map_fst_cons h4
        obtain rfl : tsnil = [] := by simpa using h5
        have hff : 1 + max (dItem fst) (dItem snd) ≤ f := by simpa [dItem] using hf
        obtain ⟨f2, rfl⟩ : ∃ g, f = g + 1 := ⟨f - 1, by omega⟩
        have hInF : pItem (pTerm f2) (tsF ++ (tsA ++ (Token.RParen, spr) :: rest)) =
            some (fst, tsA ++ (Token.RParen, spr) :: rest, []) :=
          L1F f2 (by omega) tsF (tsA ++ (Token.RParen, spr) :: rest) hF
        have hInA : pItem (pTerm f2) (tsA ++ (Token.RParen, spr) :: rest) =
            some (snd, (Token.RParen, spr) :: rest, []) :=
          L1A f2 (by omega) tsA ((Token.RParen, spr) :: rest) hA
        have hnop : pNumOpP (pTerm f2) ((numOperToken op, spo) ::
            (tsF ++ (tsA ++ (Token.RParen, spr) :: rest))) =
            some (Term.NumOp op fst snd, (Token.RParen, spr) :: rest, []) := by
          simp [pNumOpP, pSeq, pNumOper_oper, hInF, hInA, pPure]
        have hInnerTerm : pTerm (f2 + 1) ((numOperToken op, spo) ::
            (tsF ++ (tsA ++ (Token.RParen, spr) :: rest))) =
            some (Term.NumOp op fst snd, (Token.RParen, spr) :: rest, []) := by
          have hlamN : pLam (pTerm f2) ((numOperToken op, spo) ::
              (tsF ++ (tsA ++ (Token.RParen, spr) :: rest))) = none :=
            pSeq_none_left (pTok_ne hno1)
          have happN : pApp (pTerm f2) ((numOperToken op, spo) ::
              (tsF ++ (tsA ++ (Token.RParen, spr) :: rest))) = none :=
            pApp_none (pItem_oper op spo _)
          have hdupN : pDup (pTerm f2) ((numOperToken op, spo) ::
              (tsF ++ (tsA ++ (Token.RParen, spr) :: rest))) = none :=
            pSeq_none_left (pTok_ne hno2)
          have hletN : pLet (pTerm f2) ((numOperToken op, spo) ::
              (tsF ++ (tsA ++ (Token.RParen, spr) :: rest))) = none :=
            pSeq_none_left (pTok_ne hno3)
          rw [pTerm]
          simp [pChoice, hlamN, happN, hdupN, hletN, hnop]
        have hnlO : pNewlines ((numOperToken op, spo) ::
            (tsF ++ (tsA ++ (Token.RParen, spr) :: rest))) =
            some ((), (numOperToken op, spo) ::
              (tsF ++ (tsA ++ (Token.RParen, spr) :: rest)), []) :=
          pNewlines_noop (by simpa using hno4)
        have hnlR : pNewlines ((Token.RParen, spr) :: rest) =
            some ((), (Token.RParen, spr) :: rest, []) := pNewlines_noop (by simp)
        have hnested : pNested (pTerm (f2 + 1))
            ((Token.LParen, sp0) :: (numOperToken op, spo) ::
              (tsF ++ (tsA ++ (Token.RParen, spr) :: rest))) =
            some (Term.NumOp op fst snd, rest, []) := by
          simp [pNested, pSeq, pTok, hnlO, hInnerTerm, hnlR, pPure]
        have hv0 : pVar ((Token.LParen, sp0) :: (numOperToken op, spo) ::
            (tsF ++ (tsA ++ (Token.RParen, spr) :: rest))) = none := rfl
        have hn0 : pNum ((Token.LParen, sp0) :: (numOperToken op, spo) ::
            (tsF ++ (tsA ++ (Token.RParen, spr) :: rest))) = none := rfl
        simp only [List.cons_append, List.append_assoc, List.singleton_append]
        simp [pItem, pChoice, hv0, hn0, hnested]
      refine ⟨?_, fun _ => L1⟩
      intro f hf ts rest hts hrest
      have hff : 1 + dItem (Term.NumOp op fst snd) ≤ f := by
        simp only [dTerm, dItem] at hf ⊢
        omega
      obtain ⟨f1, rfl⟩ : ∃ g, f = g + 1 := ⟨f - 1, by omega⟩
      have hitem := L1 f1 (by omega) ts rest hts
      have happ : pApp (pTerm f1) (ts ++ rest) = some (Term.NumOp op fst snd, rest, []) := by
        simp [pApp, hitem, pAppArgs_stop _ _ hrest]
      have hts' : ts.map Prod.fst = Token.LParen :: numOperToken op ::
          (termTokens fst ++ (termTokens snd ++ [Token.RParen])) := by
        simpa [termTokens, List.append_assoc] using hts
      obtain ⟨sp0, ts', rfl, h1⟩ := map_fst_cons hts'
      simp only [List.cons_append] at happ ⊢
      have hlamN : pLam (pTerm f1) ((Token.LParen, sp0) :: (ts' ++ rest)) = none :=
        pSeq_none_left (pTok_ne (by simp))
      rw [pTerm]
      simp [pChoice, hlamN, happ]
  | Sup fst snd ihf iha =>
      intro hg
      simp [goodTerm] at hg
  | Era =>
      intro hg
      simp [goodTerm] at hg

/-- The item-position fuel need is below the rendering's token count. -/
theorem dItem_lt_len (t : Term) : dItem t + 1 ≤ (termTokens t).length := by
  induction t with
  | Var n => simp [dItem, termTokens]
  | Num v => simp [dItem, termTokens]
  | App f a ihf iha =>
      simp only [dItem, termTokens, List.length_cons, List.length_append,
        List.length_singleton] at ihf iha ⊢
      omega
  | NumOp op f a ihf iha =>
      simp only [dItem, termTokens, List.length_cons, List.length_append,
        List.length_singleton] at ihf iha ⊢
      omega
  | Lam n b ih => simp [dItem, termTokens]
  | Dup a b v x ihv ihx => simp [dItem, termTokens]
  | Sup a b ihf iha => simp [dItem, termTokens]
  | Era => simp [dItem, termTokens]

/-- The term-position fuel need is below the token count plus one. -/
theorem dTerm_le_len (t : Term) : dTerm t ≤ (termTokens t).length + 1 := by
  cases t with
  | Lam n b =>
      have := dTerm_le_len b
      simp only [dTerm, termTokens, List.length_cons] at this ⊢
      omega
  | Dup a b v x =>
      have h1 := dTerm_le_len v
      have h2 := dTerm_le_len x
      simp only [dTerm, termTokens, List.length_cons, List.length_append] at h1 h2 ⊢
      omega
  | App f a =>
      have h1 := dItem_lt_len f
      have h2 := dItem_lt_len a
      simp only [dTerm, termTokens, List.length_cons, List.length_append,
        List.length_singleton] at h1 h2 ⊢
      omega
  | NumOp op f a =>
      have h1 := dItem_lt_len f
      have h2 := dItem_lt_len a
      simp only [dTerm, termTokens, List.length_cons, List.length_append,
        List.length_singleton] at h1 h2 ⊢
      omega
  | Var n => simp [dTerm, termTokens]
  | Num v => simp [dTerm, termTokens]
  | Sup a b => simp [dTerm, termTokens]
  | Era => simp [dTerm, termTokens]

/-- The fold in the `Ctr` arm of the conversion is exactly the application
chain of the converted arguments. -/
theorem patternFold_eq_appChain (args : List Pattern) :
    ∀ acc : Term, patternFold acc args = appChain acc (args.map patternToTerm) := by
  induction args with
  | nil => intro acc; rfl
  | cons p ps ih =>
      intro acc
      simp only [patternFold, List.map_cons, appChain]
      exact ih (Term.App acc (patternToTerm p))

/-- C4: for each of the four implemented operators Add, Sub, Mul and Div,
encoding to the u8 opcode and decoding back yields `Ok` of the original
operator. -/
theorem claim_C4_opcode_roundtrip_implemented :
    numOperTryFrom (numOperToU8 .Add) = some (.ok .Add) ∧
    numOperTryFrom (numOperToU8 .Sub) = some (.ok .Sub) ∧
    numOperTryFrom (numOperToU8 .Mul) = some (.ok .Mul) ∧
    numOperTryFrom (numOperToU8 .Div) = some (.ok .Div) := by
  decide

/-- C5: operator-to-opcode encoding is total over all 16 operators and maps
them onto the opcodes 0x0 through 0xf (every operator's opcode is below 16 and
every opcode below 16 is some operator's), while for every opcode from 0x4
through 0xf the decoding hits `todo!()` — an internal defect (modelled `none`)
rather than an operator or the recoverable `Err(())`. -/
theorem claim_C5_opcode_decode_partial :
    (∀ op : NumOper, numOperToU8 op ≤ 15) ∧
    (∀ v : Fin 16, ∃ op : NumOper, numOperToU8 op = v.val) ∧
    (∀ v : Fin 12, numOperTryFrom (4 + v.val) = none) := by
  decide

/-- C6: pattern-to-term conversion is exactly the left-fold of the converted
sub-patterns as successive applications onto the head variable, numeric
patterns become numeric terms, variable patterns become variable terms, and
the `Ctr("Pair", [Var "a", Var "b"])` example displays as `((Pair a) b)`. -/
theorem claim_C6_pattern_to_term :
    (∀ (nam : Name) (args : List Pattern),
      patternToTerm (.Ctr nam args) = appChain (Term.Var nam) (args.map patternToTerm)) ∧
    (∀ n : Number, patternToTerm (.Num n) = Term.Num n) ∧
    (∀ nam : Name, patternToTerm (.Var nam) = Term.Var nam) ∧
    displayTerm (patternToTerm (.Ctr "Pair" [.Var "a", .Var "b"])) = "((Pair a) b)" := by
  refine ⟨fun nam args => ?_, fun n => by simp [patternToTerm], fun nam => by simp [patternToTerm], ?_⟩
  · rw [patternToTerm]
    exact patternFold_eq_appChain args (Term.Var nam)
  · simp [patternToTerm, patternFold, displayTerm]

/-- C2: book assembly distinguishes adjacent from non-adjacent duplicates.
For rule names `[a, a, b]` the outcome is a book containing only `b` together
with the single "Definition with multiple rules 'a'" diagnostic spanning the
two `a` rules; for `[a, b, a]` the outcome keeps the first `a` and `b` in the
book and emits the single "Repeated definition 'a'" diagnostic at the second
`a`'s span, without overwriting the existing entry. -/
theorem claim_C2_adjacent_vs_nonadjacent_duplicates :
    rules_to_book
        [(⟨"a", [], Term.Num 1⟩, ⟨0, 7⟩), (⟨"a", [], Term.Num 2⟩, ⟨8, 15⟩),
         (⟨"b", [], Term.Num 3⟩, ⟨16, 23⟩)] =
      (⟨[("b", ⟨"b", [⟨"b", [], Term.Num 3⟩]⟩)]⟩,
       [.custom ⟨0, 15⟩ "Definition with multiple rules 'a'"]) ∧
    rules_to_book
        [(⟨"a", [], Term.Num 1⟩, ⟨0, 7⟩), (⟨"b", [], Term.Num 3⟩, ⟨8, 15⟩),
         (⟨"a", [], Term.Num 2⟩, ⟨16, 23⟩)] =
      (⟨[("a", ⟨"a", [⟨"a", [], Term.Num 1⟩]⟩), ("b", ⟨"b", [⟨"b", [], Term.Num 3⟩]⟩)]⟩,
       [.custom ⟨16, 23⟩ "Repeated definition 'a'"]) :=
  ⟨rfl, rfl⟩

/-- Inversion of sequencing: a successful `pSeq` is a successful first parser
followed by a successful continuation, with diagnostics concatenated. -/
theorem pSeq_eq_some {α β : Type} {p : ParserM α} {k : α → ParserM β}
    {ts : List (Token × Span)} {r : β × List (Token × Span) × List Diag} :
    pSeq p k ts = some r ↔
      ∃ a ts1 ds1 b ts2 ds2, p ts = some (a, ts1, ds1) ∧ k a ts1 = some (b, ts2, ds2) ∧
        r = (b, ts2, ds1 ++ ds2) := by
  simp only [pSeq, Option.bind_eq_some, Option.map_eq_some']
  constructor
  · rintro ⟨⟨a, ts1, ds1⟩, h1, ⟨b, ts2, ds2⟩, h2, rfl⟩
    exact ⟨a, ts1, ds1, b, ts2, ds2, h1, h2, rfl⟩
  · rintro ⟨a, ts1, ds1, b, ts2, ds2, h1, h2, rfl⟩
    exact ⟨⟨a, ts1, ds1⟩, h1, ⟨b, ts2, ds2⟩, h2, rfl⟩

/-- C7: `let` is a pure syntactic desugaring. Parsing `let x = 1; x` yields
exactly `App(Lam("x", Var "x"), Num 1)`, structurally equal to the parse of
`(λx x) 1`; and every successful run of the `let_` alternative, whatever the
input, produces a term of the shape `App(Lam(name, next), body)` — the parser
has no `Let` node at all. -/
theorem claim_C7_let_desugaring :
    parse_term "let x = 1; x" = .ok (.App (.Lam "x" (.Var "x")) (.Num 1)) ∧
    parse_term "let x = 1; x" = parse_term "(λx x) 1" ∧
    (∀ (pt : ParserM Term) (ts : List (Token × Span))
        (out : Term × List (Token × Span) × List Diag),
      pLet pt ts = some out →
      ∃ (nam : Name) (bod nxt : Term), out.1 = Term.App (Term.Lam nam nxt) bod) := by
  refine ⟨rfl, rfl, fun pt ts out h => ?_⟩
  unfold pLet at h
  obtain ⟨_, ts1, ds1, b, ts2, ds2, h1, h2, hr⟩ := pSeq_eq_some.mp h
  obtain ⟨nam, ts3, ds3, b', ts4, ds4, h3, h4, hb⟩ := pSeq_eq_some.mp h2
  obtain ⟨_, ts5, ds5, b'', ts6, ds6, h5, h6, hb'⟩ := pSeq_eq_some.mp h4
  obtain ⟨bod, ts7, ds7, b3, ts8, ds8, h7, h8, hb''⟩ := pSeq_eq_some.mp h6
  obtain ⟨_, ts9, ds9, b4, ts10, ds10, h9, h10, hb3⟩ := pSeq_eq_some.mp h8
  obtain ⟨_, ts11, ds11, b5, ts12, ds12, h11, h12, hb4⟩ := pSeq_eq_some.mp h10
  obtain ⟨nxt, ts13, ds13, b6, ts14, ds14, h13, h14, hb5⟩ := pSeq_eq_some.mp h12
  refine ⟨nam, bod, nxt, ?_⟩
  have e0 : out.1 = b := by rw [hr]
  have e1 : b = b' := congrArg (fun z => z.1) hb
  have e2 : b' = b'' := congrArg (fun z => z.1) hb'
  have e3 : b'' = b3 := congrArg (fun z => z.1) hb''
  have e4 : b3 = b4 := congrArg (fun z => z.1) hb3
  have e5 : b4 = b5 := congrArg (fun z => z.1) hb4
  have e6 : b5 = b6 := congrArg (fun z => z.1) hb5
  have e7 : b6 = Term.App (Term.Lam nam nxt) bod := by
    have h14' : (Term.App (Term.Lam nam nxt) bod, ts13, ([] : List Diag)) = (b6, ts14, ds14) := by
      simpa [pPure] using h14
    exact (congrArg (fun z => z.1) h14').symm
  rw [e0, e1, e2, e3, e4, e5, e6, e7]

/-- Witness for C7 at a concrete input: the `let_` alternative run on the
tokens of `let x = 1; x` succeeds, and the theorem exhibits the
`App(Lam(name, next), body)` shape of its output. -/
theorem claim_C7_let_desugaring_witness :
    ∃ (nam : Name) (bod nxt : Term),
      (Term.App (Term.Lam "x" (Term.Var "x")) (Term.Num 1), ([] : List (Token × Span)),
        ([] : List Diag)).1 = Term.App (Term.Lam nam nxt) bod :=
  claim_C7_let_desugaring.2.2 (pTerm 7) (lex "let x = 1; x")
    (Term.App (Term.Lam "x" (Term.Var "x")) (Term.Num 1), [], []) rfl

/-- C8: application parses left-associatively. Parsing `f a b c` yields
exactly `App(App(App(Var f, Var a), Var b), Var c)`; and the greedy trailing
loop of the `app` alternative always produces the left fold of the items it
consumed onto its accumulator. -/
theorem claim_C8_application_left_fold :
    parse_term "f a b c" =
      .ok (.App (.App (.App (.Var "f") (.Var "a")) (.Var "b")) (.Var "c")) ∧
    (∀ (pit : ParserM Term) (budget : Nat) (acc : Term) (ts : List (Token × Span))
        (out : Term × List (Token × Span) × List Diag),
      pAppArgs pit budget acc ts = some out →
      ∃ args : List Term, out.1 = args.foldl Term.App acc) := by
  refine ⟨rfl, fun pit budget => ?_⟩
  induction budget with
  | zero =>
      intro acc ts out h
      obtain rfl : (acc, ts, ([] : List Diag)) = out := by simpa [pAppArgs] using h
      exact ⟨[], rfl⟩
  | succ n ih =>
      intro acc ts out h
      cases h1 : pit ts with
      | none =>
          simp only [pAppArgs, h1, Option.some.injEq] at h
          exact ⟨[], by rw [← h]; rfl⟩
      | some x =>
          obtain ⟨a, ts1, ds1⟩ := x
          simp only [pAppArgs, h1] at h
          cases h2 : pAppArgs pit n (Term.App acc a) ts1 with
          | none => rw [h2] at h; simp at h
          | some y =>
              obtain ⟨r, ts2, ds2⟩ := y
              rw [h2] at h
              obtain rfl : (r, ts2, ds1 ++ ds2) = out := by simpa using h
              obtain ⟨args, hargs⟩ := ih (Term.App acc a) ts1 (r, ts2, ds2) h2
              exact ⟨a :: args, by simpa using hargs⟩

/-- Witness for C8 at a concrete input: the greedy loop run with accumulator
`Var f` on the tokens of `a b c` succeeds, and the theorem exhibits the left
fold shape of its output. -/
theorem claim_C8_application_left_fold_witness :
    ∃ args : List Term,
      (Term.App (Term.App (Term.App (Term.Var "f") (Term.Var "a")) (Term.Var "b")) (Term.Var "c"),
        ([] : List (Token × Span)), ([] : List Diag)).1 = args.foldl Term.App (Term.Var "f") :=
  claim_C8_application_left_fold.2 (pItem (pTerm 1)) 3 (Term.Var "f") (lex "a b c")
    (Term.App (Term.App (Term.App (Term.Var "f") (Term.Var "a")) (Term.Var "b")) (Term.Var "c"),
      [], []) rfl

/-- C9: the maximum permitted name length is 8, derived as
`(64 − 16) / log2 64`; consuming a longer name token emits the non-fatal
diagnostic naming the identifier and its span while still yielding the name
and the untouched remaining input, and a name of at most 8 characters emits no
diagnostic. -/
theorem claim_C9_name_length_validation :
    MAX_NAME_LEN = 8 ∧
    (∀ (s : String) (sp : Span) (rest : List (Token × Span)),
      (8 < s.length →
        pName ((Token.Name s, sp) :: rest) =
          some (s, rest,
            [Diag.custom sp ("'" ++ s ++ "' exceed maximum name length of " ++ "8")])) ∧
      (s.length ≤ 8 →
        pName ((Token.Name s, sp) :: rest) = some (s, rest, []))) := by
  have hmax : MAX_NAME_LEN = 8 := rfl
  refine ⟨hmax, fun s sp rest => ⟨fun h => ?_, fun h => ?_⟩⟩
  · simp only [pName]
    rw [if_pos (show s.length > MAX_NAME_LEN from hmax ▸ h)]
    rfl
  · simp only [pName]
    rw [if_neg (show ¬s.length > MAX_NAME_LEN from by rw [hmax]; omega)]

/-- Witness for C9 at concrete inputs: a 9-character name yields its value and
the diagnostic; a 4-character name yields its value and no diagnostic. -/
theorem claim_C9_name_length_validation_witness :
    pName [(Token.Name "Abcdefghi", ⟨0, 9⟩)] =
      some ("Abcdefghi", [],
        [Diag.custom ⟨0, 9⟩ ("'" ++ "Abcdefghi" ++ "' exceed maximum name length of " ++ "8")]) ∧
    pName [(Token.Name "Main", ⟨0, 4⟩)] = some ("Main", [], []) :=
  ⟨((claim_C9_name_length_validation.2 "Abcdefghi" ⟨0, 9⟩ []).1 (by decide)),
   ((claim_C9_name_length_validation.2 "Main" ⟨0, 4⟩ []).2 (by decide))⟩

/-- C1 fails on the code: on a source whose book assembly emits a diagnostic,
the book parser itself succeeds with the assembled (partial) book `{b}` and the
non-empty diagnostic list, but `parse_definition_book` — through
`into_result` — returns only `Err(diagnostics)`: the non-empty diagnostic list
does deprive the caller of the assembled book. -/
theorem claim_C1_counterexample_book_dropped :
    parse_definition_book "(a) = 1\n(a) = 2\n(b) = 3" =
      .err [.custom ⟨0, 15⟩ "Definition with multiple rules 'a'"] ∧
    pBook ((lex "(a) = 1\n(a) = 2\n(b) = 3").length + 1) (lex "(a) = 1\n(a) = 2\n(b) = 3") =
      some (⟨[("b", ⟨"b", [⟨"b", [], Term.Num 3⟩]⟩)]⟩, [],
        [.custom ⟨0, 15⟩ "Definition with multiple rules 'a'"]) :=
  ⟨rfl, rfl⟩

/-- C1 as amended: `parse_definition_book` returns either `Ok(book)` (clean
success, no diagnostics) or `Err` with a non-empty diagnostic list — in the
latter case the internally assembled book is discarded rather than returned
alongside the diagnostics. -/
theorem claim_C1_amended_ok_or_nonempty_err :
    ∀ code : String,
      (∃ book, parse_definition_book code = .ok book) ∨
      (∃ ds, parse_definition_book code = .err ds ∧ ds ≠ []) := by
  intro code
  cases h : pBook ((lex code).length + 1) (lex code) with
  | none =>
      exact Or.inr ⟨[.generated], by simp [parse_definition_book, runParser, h], by simp⟩
  | some x =>
      obtain ⟨book, rest, ds⟩ := x
      match rest, ds, h with
      | [], [], h =>
          exact Or.inl ⟨book, by simp [parse_definition_book, runParser, h]⟩
      | [], d0 :: ds', h =>
          exact Or.inr ⟨d0 :: ds', by simp [parse_definition_book, runParser, h], by simp⟩
      | r0 :: rest', ds, h =>
          exact Or.inr ⟨ds ++ [.generated],
            by simp [parse_definition_book, runParser, h], by simp⟩

/-- C10: for the rule-name sequence `[a, a, b, a]` the rejected contiguous
`a`-group leaves no trace in the book, so the later non-adjacent `a` rule is
inserted without any "Repeated definition" diagnostic: the book holds `b` and
the final `a`, and the only diagnostic is the "multiple rules" one for the
first group. -/
theorem claim_C10_rejected_group_then_reinsertion :
    rules_to_book
        [(⟨"a", [], Term.Num 1⟩, ⟨0, 7⟩), (⟨"a", [], Term.Num 2⟩, ⟨8, 15⟩),
         (⟨"b", [], Term.Num 3⟩, ⟨16, 23⟩), (⟨"a", [], Term.Num 4⟩, ⟨24, 31⟩)] =
      (⟨[("b", ⟨"b", [⟨"b", [], Term.Num 3⟩]⟩), ("a", ⟨"a", [⟨"a", [], Term.Num 4⟩]⟩)]⟩,
       [.custom ⟨0, 15⟩ "Definition with multiple rules 'a'"]) :=
  rfl

/-- C3 fails on the code: `Era` renders as `*`, but the grammar has no
production for `*` (it lexes to the multiplication operator token, and a bare
operator is not a term), so re-parsing the rendering fails instead of
returning the term. -/
theorem claim_C3_counterexample_era :
    displayTerm Term.Era = "*" ∧ parse_term (displayTerm Term.Era) = .err [Diag.generated] :=
  ⟨rfl, rfl⟩

/-- C3 as amended: rendering round-trips through `parse_term` exactly on the
grammar-expressible fragment — terms with no `Sup`/`Era` node, every name a
valid non-keyword identifier of at most 8 characters, and every `App`/`NumOp`
operand itself rendering as an `Item` (variable, number, application or
numeric operation). For such terms re-parsing the rendering yields a
structurally equal term; and the rendering shapes are as stated: lambda uses
the lambda glyph, duplication renders as `dup a b = v; n`, application renders
fully parenthesized, superposition renders as a brace-delimited pair, and
erasure renders as `*` (the latter two being exactly the forms the grammar
cannot read back). -/
theorem claim_C3_amended_roundtrip :
    (∀ t : Term, goodTerm t = true → parse_term (displayTerm t) = .ok t) ∧
    (∀ nam bod, displayTerm (Term.Lam nam bod) = "λ" ++ nam ++ " " ++ displayTerm bod) ∧
    (∀ a b v n, displayTerm (Term.Dup a b v n) =
      "dup " ++ a ++ " " ++ b ++ " = " ++ displayTerm v ++ "; " ++ displayTerm n) ∧
    (∀ f a, displayTerm (Term.App f a) = "(" ++ displayTerm f ++ " " ++ displayTerm a ++ ")") ∧
    (∀ f s, displayTerm (Term.Sup f s) =
      "\x7b" ++ displayTerm f ++ " " ++ displayTerm s ++ "\x7d") ∧
    displayTerm Term.Era = "*" := by
  refine ⟨?_, fun _ _ => rfl, fun _ _ _ _ => rfl, fun _ _ => rfl, fun _ _ => rfl, rfl⟩
  intro t hg
  have hlex : (lex (displayTerm t)).map Prod.fst = termTokens t := by
    have h1 : (lex (displayTerm t)).map Prod.fst = lexTokens (displayTerm t).data := rfl
    rw [h1]
    have h2 := lexTokens_display t hg [] (by simp [sepHead])
    have h3 : lexTokens ([] : List Char) = [] := rfl
    simpa [h3] using h2
  have hlen : (lex (displayTerm t)).length = (termTokens t).length := by
    have := congrArg List.length hlex
    simpa using this
  have hfuel : dTerm t ≤ (lex (displayTerm t)).length + 1 := by
    rw [hlen]
    exact dTerm_le_len t
  have hparse : pTerm ((lex (displayTerm t)).length + 1) (lex (displayTerm t) ++ []) =
      some (t, [], []) :=
    (parse_termTokens t hg).1 _ hfuel (lex (displayTerm t)) [] hlex (by simp [stopHead])
  rw [List.append_nil] at hparse
  show runParser (pTerm ((lex (displayTerm t)).length + 1)) (lex (displayTerm t)) = .ok t
  simp [runParser, hparse]

/-- Witness for C3 as amended, at a concrete fragment term exercising
duplication, a numeric operation and an application chain. -/
theorem claim_C3_amended_roundtrip_witness :
    goodTerm (Term.Dup "a" "b" (Term.NumOp .Add (Term.Num 1) (Term.Num 2))
      (Term.App (Term.Var "a") (Term.Var "b"))) = true ∧
    parse_term (displayTerm (Term.Dup "a" "b" (Term.NumOp .Add (Term.Num 1) (Term.Num 2))
      (Term.App (Term.Var "a") (Term.Var "b")))) =
      .ok (Term.Dup "a" "b" (Term.NumOp .Add (Term.Num 1) (Term.Num 2))
        (Term.App (Term.Var "a") (Term.Var "b"))) :=
  ⟨rfl, claim_C3_amended_roundtrip.1 _ rfl⟩

end Hvm


